import Mathlib

/-!
Verification development for the gensketch genome-browser core.

The Rust source is shallowly embedded: u64 coordinates are modelled as `Nat`
(`u64::saturating_sub` is exactly truncated `Nat` subtraction; an unchecked
u64 subtraction that would underflow, which panics in Rust debug builds, is
modelled as `none`).  Fallible Rust functions returning `Result` are modelled
as `Option`-returning functions, with `none` for the error case.

The file is organised as: all definitions (the embedding) first, then all
theorems.
-/

/-! ## Definitions -/

/-! ### Coordinate model (src-tauri/src/bio_util/genomic_coordinates.rs) -/

/-- Half-open, 0-indexed genomic interval.  Field `end_` models the Rust
field `end` (a keyword in Lean). -/
structure GenomicInterval where
  start : Nat
  end_ : Nat
deriving DecidableEq, Repr

/-- `GenomicInterval::new`: fails when `end < start`. -/
def GenomicInterval.new (start end_ : Nat) : Option GenomicInterval :=
  if end_ < start then none else some ⟨start, end_⟩

def GenomicInterval.len (i : GenomicInterval) : Nat := i.end_ - i.start

/-- `GenomicInterval::expand`: `new(start.saturating_sub(by), end + by)`.
Truncated `Nat` subtraction models `saturating_sub` exactly. -/
def GenomicInterval.expand (i : GenomicInterval) (amt : Nat) : Option GenomicInterval :=
  GenomicInterval.new (i.start - amt) (i.end_ + amt)

/-- `GenomicInterval::contract`: `new(start + by, end - by)`.  The u64
subtraction `end - by` underflows (panics) when `by > end`; that case is
modelled as `none`. -/
def GenomicInterval.contract (i : GenomicInterval) (amt : Nat) : Option GenomicInterval :=
  if i.end_ < amt then none else GenomicInterval.new (i.start + amt) (i.end_ - amt)

/-- `GenomicInterval::contains`: `self.start <= other.start && self.end >= other.end`. -/
def GenomicInterval.contains (a b : GenomicInterval) : Bool :=
  decide (a.start ≤ b.start) && decide (b.end_ ≤ a.end_)

/-- `GenomicInterval::overlaps` exactly as written in the source:
`self.start <= other.end && self.end <= self.end`.  The second conjunct
compares `self.end` with itself (the defect the spec flags). -/
def GenomicInterval.overlaps (a b : GenomicInterval) : Bool :=
  decide (a.start ≤ b.end_) && decide (a.end_ ≤ a.end_)

/-- Modelled from the spec: the authoritative overlap predicate the spec
prescribes (`self.start <= other.end && other.start <= self.end`), which the
source's `GenomicInterval::overlaps` fails to implement. -/
def overlapsSpec (a b : GenomicInterval) : Bool :=
  decide (a.start ≤ b.end_) && decide (b.start ≤ a.end_)

/-- Genomic region: a contig name plus an interval. -/
structure GenomicRegion where
  seqName : String
  interval : GenomicInterval
deriving DecidableEq, Repr

/-- `GenomicRegion::new` (checks `end < start`, then builds the interval). -/
def GenomicRegion.new (seqName : String) (start end_ : Nat) : Option GenomicRegion :=
  if end_ < start then none
  else (GenomicInterval.new start end_).map (fun i => ⟨seqName, i⟩)

def GenomicRegion.start (r : GenomicRegion) : Nat := r.interval.start

def GenomicRegion.end_ (r : GenomicRegion) : Nat := r.interval.end_

def GenomicRegion.len (r : GenomicRegion) : Nat := r.interval.len

/-- `GenomicRegion::expand`. -/
def GenomicRegion.expand (r : GenomicRegion) (amt : Nat) : Option GenomicRegion :=
  (r.interval.expand amt).bind (fun e => GenomicRegion.new r.seqName e.start e.end_)

/-- `GenomicRegion::contract`. -/
def GenomicRegion.contract (r : GenomicRegion) (amt : Nat) : Option GenomicRegion :=
  (r.interval.contract amt).bind (fun e => GenomicRegion.new r.seqName e.start e.end_)

/-! ### Viewport bound tracker (src-tauri/src/interface/split.rs) -/

def BUFFER_SIZE : Nat := 1

def REFRESH_FRACTION : Nat := 2

/-- Clip a region's end to the contig length, as both region computations in
split.rs do after expanding. -/
def clipEnd (r : GenomicRegion) (seqLength : Nat) : GenomicRegion :=
  if seqLength < r.interval.end_ then { r with interval := { r.interval with end_ := seqLength } }
  else r

/-- `get_buffered_region`: focused region expanded by
`BUFFER_SIZE * focused.len()`, end clipped to the contig length. -/
def get_buffered_region (focused : GenomicRegion) (seqLength : Nat) : Option GenomicRegion :=
  (focused.expand (BUFFER_SIZE * focused.len)).map (fun e => clipEnd e seqLength)

/-- `get_refresh_bound_region`: focused region expanded (not contracted from
the buffered region) by `focused.len() * BUFFER_SIZE / REFRESH_FRACTION`, end
clipped to the contig length. -/
def get_refresh_bound_region (focused : GenomicRegion) (seqLength : Nat) : Option GenomicRegion :=
  (focused.expand (focused.len * BUFFER_SIZE / REFRESH_FRACTION)).map (fun e => clipEnd e seqLength)

inductive BoundState
  | OutsideBuffered
  | OutsideRefreshBound
  | WithinRefreshBound
  | OutsideRenderRange
deriving DecidableEq, Repr

/-- The fields of `Split` that `check_bounds` reads (the reference-sequence
reader and cached sequence views play no part in bound classification). -/
structure Split where
  focusedRegion : GenomicRegion
  bufferedRegion : GenomicRegion
  refreshBoundRegion : GenomicRegion
  maxRenderWindow : Nat
deriving DecidableEq, Repr

/-- `Split::check_bounds`, including the fourth disjunct of the
`OutsideBuffered` branch (`self.buffered_region.len() > self.max_render_window`). -/
def Split.check_bounds (s : Split) (region : GenomicRegion) : BoundState :=
  if s.maxRenderWindow < region.len then BoundState.OutsideRenderRange
  else if region.seqName ≠ s.bufferedRegion.seqName ∨
      region.start < s.bufferedRegion.start ∨
      s.bufferedRegion.end_ < region.end_ ∨
      s.maxRenderWindow < s.bufferedRegion.len then BoundState.OutsideBuffered
  else if region.start < s.refreshBoundRegion.start ∨
      s.refreshBoundRegion.end_ < region.end_ then BoundState.OutsideRefreshBound
  else BoundState.WithinRefreshBound

/-! ### Sorted alignment index (src-tauri/src/alignments/alignment.rs)

The `Alignment` trait exposes a stable string id plus start/end coordinates;
`Aln` is a concrete model of any implementor (it mirrors the FakeAlignment
record the crate's own tests instantiate the structures with).  The
`AlignmentSearchList<T, S>` phantom-typed wrapper is modelled as a plain
`List Aln` whose sort state is tracked by the sorting functions below. -/

/-- Rust's `String`/`&str` ordering is lexicographic on bytes; byte strings
are modelled as `List Nat` so that all comparisons stay kernel-computable
(`String.ltb` in Lean is defined by well-founded recursion, which does not
reduce).  `leB` is lexicographic less-or-equal, mirroring `Ord for str`. -/
def leB : List Nat → List Nat → Bool
  | [], _ => true
  | _ :: _, [] => false
  | a :: as, b :: bs => if a < b then true else if b < a then false else leB as bs

/-- Lexicographic strict less-than on byte strings, mirroring `<` on Rust
string slices. -/
def ltB : List Nat → List Nat → Bool
  | [], [] => false
  | [], _ :: _ => true
  | _ :: _, [] => false
  | a :: as, b :: bs => if a < b then true else if b < a then false else ltB as bs

structure Aln where
  id : List Nat
  start : Nat
  end_ : Nat
deriving DecidableEq, Repr

/-- Out-of-bounds indexing in the Rust source would panic; a default element
stands in for those (unreachable) reads. -/
def dummyAln : Aln := ⟨[], 0, 0⟩

/-- The lexicographic `(start, id)` key order used by `sort_by_key`. -/
def startLe (a b : Aln) : Prop :=
  a.start < b.start ∨ (a.start = b.start ∧ leB a.id b.id = true)

instance : DecidableRel startLe := fun a b => by unfold startLe; exact inferInstance

/-- The lexicographic `(end, id)` key order used by `sort_by_end`. -/
def endLe (a b : Aln) : Prop :=
  a.end_ < b.end_ ∨ (a.end_ = b.end_ ∧ leB a.id b.id = true)

instance : DecidableRel endLe := fun a b => by unfold endLe; exact inferInstance

/-- `From<Vec<T>> for AlignmentSearchList<T, SortStart>`: a stable sort by
the `(start, id)` key (insertion sort is stable, like Rust's `sort_by_key`). -/
def sortByStart (l : List Aln) : List Aln := l.insertionSort startLe

/-- `AlignmentSearchList::sort_by_end` / `From<Vec<T>>` for the end-sorted
state: a stable sort by the `(end, id)` key. -/
def sortByEnd (l : List Aln) : List Aln := l.insertionSort endLe

/-- The binary-search loop of `search_after` (the Rust source stores
`(low + high) / 2` in a mutable `mid`; the expression is inlined here).  The
loop terminates because `high - low` shrinks; `fuel` bounds the iteration
count and is passed as `l.length`, which the loop never exhausts. -/
def searchAfterGo (l : List Aln) (minStart : Nat) : Nat → Nat → Nat → Nat
  | 0, low, _ => low
  | fuel + 1, low, high =>
    if low < high then
      if (l.getD ((low + high) / 2) dummyAln).start < minStart then
        searchAfterGo l minStart fuel ((low + high) / 2 + 1) high
      else
        searchAfterGo l minStart fuel low ((low + high) / 2)
    else low

/-- `AlignmentSearchList::<_, SortStart>::search_after`. -/
def search_after (l : List Aln) (minStart : Nat) : Option Nat :=
  match l.getLast? with
  | none => none
  | some last =>
    if last.start < minStart then none
    else some (searchAfterGo l minStart l.length 0 (l.length - 1))

/-- The binary-search loop of `search_before` (mid is biased up:
`(low + high) / 2 + 1`). -/
def searchBeforeGo (l : List Aln) (maxEnd : Nat) : Nat → Nat → Nat → Nat
  | 0, low, _ => low
  | fuel + 1, low, high =>
    if low < high then
      if maxEnd < (l.getD ((low + high) / 2 + 1) dummyAln).end_ then
        searchBeforeGo l maxEnd fuel low ((low + high) / 2 + 1 - 1)
      else
        searchBeforeGo l maxEnd fuel ((low + high) / 2 + 1) high
    else low

/-- `AlignmentSearchList::<_, SortEnd>::search_before`. -/
def search_before (l : List Aln) (maxEnd : Nat) : Option Nat :=
  match l.head? with
  | none => none
  | some first =>
    if maxEnd < first.end_ then none
    else some (searchBeforeGo l maxEnd l.length 0 (l.length - 1))

/-- `pop_after`: search, then remove and return the element at the found
index (`Vec::remove` is `List.eraseIdx`). -/
def pop_after (l : List Aln) (minStart : Nat) : Option (Aln × List Aln) :=
  (search_after l minStart).map (fun i => (l.getD i dummyAln, l.eraseIdx i))

/-- `pop_before`: search, then remove and return the element at the found
index. -/
def pop_before (l : List Aln) (maxEnd : Nat) : Option (Aln × List Aln) :=
  (search_before l maxEnd).map (fun i => (l.getD i dummyAln, l.eraseIdx i))

/-- `AlignmentSearchList::<_, SortStart>::push`: append only if the list
stays `(start, id)`-sorted, otherwise fail. -/
def pushStartSorted (l : List Aln) (value : Aln) : Option (List Aln) :=
  match l.getLast? with
  | some last =>
    if value.start < last.start ∨ (value.start = last.start ∧ ltB value.id last.id = true) then
      none
    else some (l ++ [value])
  | none => some (l ++ [value])

/-- The start-sorted index the spec's search examples are built from:
intervals (0,10),(1,11),(1,12),(10,20),(11,22) with ids 0..4 (the byte
strings "0".."4"). -/
def exAlns : List Aln :=
  [⟨[48], 0, 10⟩, ⟨[49], 1, 11⟩, ⟨[50], 1, 12⟩, ⟨[51], 10, 20⟩, ⟨[52], 11, 22⟩]

/-! ### Alignment stack (src-tauri/src/alignments/stack.rs) -/

def PADDING : Nat := 1

/-- `u64::MAX`, the fresh-row bound in `extend_stack_left`. -/
def U64MAX : Nat := 2 ^ 64 - 1

/-- An alignment interval is valid (nonempty) when its start is strictly
below its end; genuine reads always satisfy this. -/
def validAln (a : Aln) : Prop := a.start < a.end_

instance : DecidablePred validAln := fun a => by unfold validAln; exact inferInstance

/-- An alignment whose padded end still fits in u64: `end + PADDING` does not
overflow, so the u64 additions in `extend_stack_right` compute exactly. -/
def boundedAln (a : Aln) : Prop := a.end_ + PADDING ≤ U64MAX

instance : DecidablePred boundedAln := fun a => by unfold boundedAln; exact inferInstance

structure AlignmentStack where
  rows : List (List Aln)
  bufferedRegion : GenomicRegion
deriving DecidableEq, Repr

/-- `AlignmentStack::new` (the random stack id plays no role in the modelled
behaviour and is omitted). -/
def AlignmentStack.new (region : GenomicRegion) : AlignmentStack :=
  ⟨[], region⟩

/-- `AlignmentStack::trim`: keep only alignments overlapping the buffered
region (`region.start <= al.end && region.end >= al.start`), then drop rows
left empty. -/
def AlignmentStack.trim (s : AlignmentStack) : AlignmentStack :=
  let kept := s.rows.map (fun row => row.filter (fun al =>
    decide (s.bufferedRegion.start ≤ al.end_) && decide (al.start ≤ s.bufferedRegion.end_)))
  { s with rows := kept.filter (fun row => decide (0 < row.length)) }

/-- `AlignmentStack::clear`. -/
def AlignmentStack.clear (s : AlignmentStack) (region : GenomicRegion) : AlignmentStack :=
  { s with bufferedRegion := region, rows := [] }

/-- A stack slot: the (row, column) coordinate of an entry plus the alignment
currently stored there.  A slot models one `&mut T` in the `stack_items`
vector of `replace_duplicates`; writing through the reference becomes
updating the slot and writing all slots back at the end. -/
abbrev Slot := (Nat × Nat) × Aln

def dummySlot : Slot := ((0, 0), dummyAln)

/-- Flatten the rows into coordinate-tagged slots, in the iteration order of
`self.rows.iter_mut().flatten()`. -/
def slotsOf (rows : List (List Aln)) : List Slot :=
  (rows.enum.map (fun p => p.2.enum.map (fun q => ((p.1, q.1), q.2)))).flatten

/-- The `(start, id)` key order on slots used by
`stack_items.sort_by_key(|al| (al.start(), al.id().to_owned()))`. -/
def slotLe (x y : Slot) : Prop := startLe x.2 y.2

instance : DecidableRel slotLe := fun x y => by unfold slotLe; exact inferInstance

/-- The inner `while` of `replace_duplicates`: advance `stack_idx` past slots
whose current start is below the incoming alignment's start.  `fuel` is
passed as `slots.length`, which the loop cannot exhaust. -/
def rdAdvance (slots : List Slot) (start : Nat) : Nat → Nat → Nat
  | 0, idx => idx
  | fuel + 1, idx =>
    if idx < slots.length ∧ (slots.getD idx dummySlot).2.start < start then
      rdAdvance slots start fuel (idx + 1)
    else idx

/-- The `for alignment in alignments` loop of `replace_duplicates`: each
incoming alignment either replaces the slot at the walk position in place
(when the ids match) or is pushed onto `updated_alignments`; a failing push
(sort violation) aborts with `none`. -/
def rdGo (slots : List Slot) (stackIdx : Nat) (updated : List Aln) :
    List Aln → Option (List Slot × List Aln)
  | [] => some (slots, updated)
  | a :: rest =>
    let idx := rdAdvance slots a.start slots.length stackIdx
    if idx < slots.length ∧ a.id = (slots.getD idx dummySlot).2.id then
      rdGo (slots.set idx ((slots.getD idx dummySlot).1, a)) idx updated rest
    else
      match pushStartSorted updated a with
      | some updated2 => rdGo slots idx updated2 rest
      | none => none

/-- Write the slots back through their coordinates (the effect of the
in-place writes through the `&mut T` references). -/
def applySlots (rows : List (List Aln)) (slots : List Slot) : List (List Aln) :=
  rows.mapIdx (fun ri row => row.mapIdx (fun ci a =>
    match slots.find? (fun s => s.1 == (ri, ci)) with
    | some s => s.2
    | none => a))

/-- `AlignmentStack::replace_duplicates`: sort the flattened row entries by
`(start, id)` (a stable sort, like `sort_by_key`), walk the incoming
alignments against them, and return the updated stack together with the
not-replaced (novel) alignments. -/
def AlignmentStack.replace_duplicates (s : AlignmentStack) (alignments : List Aln) :
    Option (AlignmentStack × List Aln) :=
  let slots := (slotsOf s.rows).insertionSort slotLe
  (rdGo slots 0 [] alignments).map (fun r =>
    ({ s with rows := applySlots s.rows r.1 }, r.2))

/-- The inner pop-append loop of `extend_stack_right` for one row; each
successful pop removes one element, so `fuel = aligns.length` suffices.  The
source computes `min_start = next_alignment.end() + PADDING` on u64, which
wraps modulo 2^64 at `end = u64::MAX` (release build; a debug build panics),
hence the explicit `% 2 ^ 64`. -/
def extendRowRight (fuel : Nat) (row : List Aln) (aligns : List Aln) (minStart : Nat) :
    List Aln × List Aln :=
  match fuel with
  | 0 => (row, aligns)
  | fuel + 1 =>
    match pop_after aligns minStart with
    | some p => extendRowRight fuel (row ++ [p.1]) p.2 ((p.1.end_ + PADDING) % 2 ^ 64)
    | none => (row, aligns)

/-- The `row_idx` loop of `extend_stack_right`: right-extend each existing
row in turn, threading the remaining alignments; `min_start` is the last
entry's end plus the padding (a u64 addition, wrapping modulo 2^64 at
`end = u64::MAX` in a release build), or 0 for an empty row. -/
def extendStackRightGo : List (List Aln) → List Aln → List (List Aln) × List Aln
  | [], aligns => ([], aligns)
  | row :: rest, aligns =>
    let minStart := match row.getLast? with
      | some last => (last.end_ + PADDING) % 2 ^ 64
      | none => 0
    let p := extendRowRight aligns.length row aligns minStart
    let q := extendStackRightGo rest p.2
    (p.1 :: q.1, q.2)

/-- `AlignmentStack::extend_stack_right`. -/
def AlignmentStack.extend_stack_right (s : AlignmentStack) (aligns : List Aln) :
    AlignmentStack × List Aln :=
  let p := extendStackRightGo s.rows aligns
  ({ s with rows := p.1 }, p.2)

/-- The inner pop-prepend loop of `extend_stack_left` for one row. -/
def extendRowLeft (fuel : Nat) (row : List Aln) (aligns : List Aln) (maxEnd : Nat) :
    List Aln × List Aln :=
  match fuel with
  | 0 => (row, aligns)
  | fuel + 1 =>
    match pop_before aligns maxEnd with
    | some p => extendRowLeft fuel (p.1 :: row) p.2 (p.1.start - PADDING)
    | none => (row, aligns)

/-- The `while !new_alignments.is_empty()` loop of `extend_stack_left`:
`todo` is the suffix of the row list from `row_idx` on; a fresh row is pushed
(with bound `u64::MAX`) when it is exhausted, otherwise the bound is the
row's first start minus the padding, saturating (`rows[row_idx][0]` would
panic on an empty row, which is unreachable; `headD` stands in).  Each
fresh-row iteration pops at least one alignment for u64 data, so the fuel
passed by `extend_stack` is never exhausted; exhaustion (`none`) corresponds
to the Rust loop never terminating. -/
def extendStackLeftGo : Nat → List (List Aln) → List Aln → Option (List (List Aln))
  | _, todo, [] => some todo
  | 0, _, _ :: _ => none
  | fuel + 1, todo, aligns =>
    match todo with
    | [] =>
      let p := extendRowLeft aligns.length [] aligns U64MAX
      (extendStackLeftGo fuel [] p.2).map (fun rs => p.1 :: rs)
    | row :: rest =>
      let p := extendRowLeft aligns.length row aligns ((row.headD dummyAln).start - PADDING)
      (extendStackLeftGo fuel rest p.2).map (fun rs => p.1 :: rs)

/-- `AlignmentStack::extend_stack`: right-extend, re-sort the remainder by
`(end, id)`, then left-extend (creating new rows as needed). -/
def AlignmentStack.extend_stack (s : AlignmentStack) (newAligns : List Aln) :
    Option AlignmentStack :=
  let p := extendStackRightGo s.rows newAligns
  let endSorted := sortByEnd p.2
  (extendStackLeftGo (p.1.length + endSorted.length + 1) p.1 endSorted).map
    (fun rs => { s with rows := rs })

/-- `AlignmentStack::update`: set the buffered region, trim, reconcile
duplicates against the `(start, id)`-sorted incoming list, and extend. -/
def AlignmentStack.update (s : AlignmentStack) (alignments : List Aln)
    (region : GenomicRegion) : Option AlignmentStack :=
  let s1 := AlignmentStack.trim { s with bufferedRegion := region }
  (s1.replace_duplicates (sortByStart alignments)).bind
    (fun r => AlignmentStack.extend_stack r.1 r.2)

/-- Padded non-overlap of one row: consecutive entries keep the 1bp gap. -/
def rowGap (row : List Aln) : Prop :=
  row.Pairwise (fun a b => a.end_ + PADDING ≤ b.start)

/-- Rows invariant carried through the packing proofs: every row is
gap-packed and holds only valid alignments whose padded end fits in u64 (so
the row-seed addition of the next right-extension cannot wrap). -/
def stackRowsInv (s : AlignmentStack) : Prop :=
  ∀ row ∈ s.rows, rowGap row ∧ ∀ a ∈ row, validAln a ∧ boundedAln a

/-- Side conditions of the amended packing claim: every incoming alignment
has a nonempty interval whose padded end fits in u64 (`end + PADDING <=
u64::MAX`, i.e. `end < u64::MAX`; at `end = u64::MAX` the source's
`end() + PADDING` wraps to 0 in a release build and the gap is lost), and an
id distinct from every id already cached in the stack. -/
def goodBatch (v : List Aln) (s : AlignmentStack) : Prop :=
  (∀ a ∈ v, validAln a ∧ boundedAln a) ∧
    ∀ a ∈ v, ∀ row ∈ s.rows, ∀ b ∈ row, a.id ≠ b.id

/-- Stack states reachable from a fresh stack by `update` and `clear` calls
whose alignment batches satisfy `P` (instantiated with `goodBatch` for the
amended claim and with the trivial predicate for the claim as stated). -/
inductive ReachableStack (P : List Aln → AlignmentStack → Prop) : AlignmentStack → Prop
  | new (region : GenomicRegion) : ReachableStack P (AlignmentStack.new region)
  | update (s s' : AlignmentStack) (v : List Aln) (region : GenomicRegion) :
      ReachableStack P s → P v s → AlignmentStack.update s v region = some s' →
      ReachableStack P s'
  | clear (s : AlignmentStack) (region : GenomicRegion) :
      ReachableStack P s → ReachableStack P (s.clear region)

/-! ### Read pairing (`file_formats/sam_bam/aligned_read.rs`) -/

/-- `AlignedRead`, restricted to the fields `pair_reads` reads: `id` is
`qname ++ "/1"` or `qname ++ "/2"` as built by `from_record` (byte strings as
`List Nat`: `'/' = 47`, `'1' = 49`, `'2' = 50`). -/
structure AlignedRead where
  id : List Nat
  qname : List Nat
  region : GenomicRegion
  matePos : Option GenomicRegion
deriving DecidableEq, Repr

/-- `PairedReads`. -/
structure PairedReads where
  id : List Nat
  read1 : AlignedRead
  read2 : Option AlignedRead
  interval : GenomicInterval
deriving DecidableEq, Repr

/-- `PairedReads::new`: the pair interval is the min/max envelope of the two
reads, or of `read1` and its recorded mate position when `read2` is absent;
the `unwrap` of a missing `mate_pos` (a panic) is modelled as `none`. -/
def PairedReads.new (read1 : AlignedRead) (read2 : Option AlignedRead) :
    Option PairedReads :=
  match read2 with
  | some r2 =>
    (GenomicInterval.new (min read1.region.start r2.region.start)
      (max read1.region.end_ r2.region.end_)).map
      (fun itv => ⟨read1.qname, read1, some r2, itv⟩)
  | none =>
    match read1.matePos with
    | none => none
    | some matePos =>
      (GenomicInterval.new (min read1.region.start matePos.start)
        (max read1.region.end_ matePos.end_)).map
        (fun itv => ⟨read1.qname, read1, none, itv⟩)

/-- `UnpairedRead` with `UnpairedRead::new`. -/
structure UnpairedRead where
  id : List Nat
  read : AlignedRead
  interval : GenomicInterval
deriving DecidableEq, Repr

def UnpairedRead.new (read : AlignedRead) : UnpairedRead :=
  ⟨read.qname, read, read.region.interval⟩

/-- `DiscordantRead` with `DiscordantRead::new`. -/
structure DiscordantRead where
  id : List Nat
  read : AlignedRead
  interval : GenomicInterval
deriving DecidableEq, Repr

def DiscordantRead.new (read : AlignedRead) : DiscordantRead :=
  ⟨read.qname, read, read.region.interval⟩

/-- `AlignedPair`. -/
inductive AlignedPair where
  | pairedReadsKind : PairedReads → AlignedPair
  | unpairedReadKind : UnpairedRead → AlignedPair
  | discordantReadKind : DiscordantRead → AlignedPair
deriving DecidableEq, Repr

/-- One iteration of the `for (_, reads) in reads_by_name.iter_mut()` loop of
`pair_reads`: `read1` is the `pop_front` of the group's deque, `rest` the
remainder; only the same-contig `Paired` branch pops a second read. -/
def pairGroup (read1 : AlignedRead) (rest : List AlignedRead) :
    Option AlignedPair :=
  match read1.matePos with
  | some matePos =>
    if read1.region.seqName = matePos.seqName then
      (PairedReads.new read1 rest.head?).map AlignedPair.pairedReadsKind
    else some (AlignedPair.discordantReadKind (DiscordantRead.new read1))
  | none => some (AlignedPair.unpairedReadKind (UnpairedRead.new read1))

/-- The group loop of `pair_reads` over the `BTreeMap` keys `ks`: the deque of
key `k` holds exactly the input reads with qname `k`, in input (`push_back`)
order; an empty group would make the `unwrap` panic (`none`). -/
def pairLoop (reads : List AlignedRead) :
    List (List Nat) → Option (List AlignedPair)
  | [] => some []
  | k :: ks =>
    match reads.filter (fun r => r.qname == k) with
    | [] => none
    | read1 :: rest =>
      match pairGroup read1 rest, pairLoop reads ks with
      | some p, some ps => some (p :: ps)
      | _, _ => none

/-- Byte-lexicographic order on qnames (Rust's `String` `Ord`, which drives
`BTreeMap` iteration order), as a decidable proposition. -/
def keyLe (a b : List Nat) : Prop := leB a b = true

instance : DecidableRel keyLe :=
  fun a b => inferInstanceAs (Decidable (leB a b = true))

/-- `pair_reads`: reads are bucketed by qname into a `BTreeMap` (insertion
order preserved inside each bucket by `push_back`), then the buckets are
consumed in sorted key order. -/
def pair_reads (reads : List AlignedRead) : Option (List AlignedPair) :=
  pairLoop reads (((reads.map AlignedRead.qname).dedup).insertionSort keyLe)

/-- Two mates of template "A" (qname `[65]`), both on contig "X", each
recording its mate's position on "X"; `exReadA` is flagged first-in-template
(id "A/1"), `exReadB` second (id "A/2"). -/
def exReadA : AlignedRead := ⟨[65, 47, 49], [65], ⟨"X", ⟨0, 10⟩⟩, some ⟨"X", ⟨5, 6⟩⟩⟩

def exReadB : AlignedRead := ⟨[65, 47, 50], [65], ⟨"X", ⟨5, 15⟩⟩, some ⟨"X", ⟨0, 1⟩⟩⟩

/-- The pair `pair_reads [exReadB, exReadA]` emits. -/
def exPair : PairedReads := ⟨[65], exReadB, some exReadA, ⟨0, 15⟩⟩

/-! ### Sequence diffs (`file_formats/sam_bam/diff.rs`, `bio_util/sequence.rs`) -/

/-- `rust_htslib`'s `Cigar` operations (lengths as `Nat`). -/
inductive Cigar where
  | Match : Nat → Cigar
  | Equal : Nat → Cigar
  | Diff : Nat → Cigar
  | Ins : Nat → Cigar
  | SoftClip : Nat → Cigar
  | Del : Nat → Cigar
  | RefSkip : Nat → Cigar
  | HardClip : Nat → Cigar
  | Pad : Nat → Cigar
deriving DecidableEq, Repr

/-- `util::same_enum_variant` (discriminant comparison). -/
def same_enum_variant : Cigar → Cigar → Bool
  | .Match _, .Match _ => true
  | .Equal _, .Equal _ => true
  | .Diff _, .Diff _ => true
  | .Ins _, .Ins _ => true
  | .SoftClip _, .SoftClip _ => true
  | .Del _, .Del _ => true
  | .RefSkip _, .RefSkip _ => true
  | .HardClip _, .HardClip _ => true
  | .Pad _, .Pad _ => true
  | _, _ => false

/-- `SequenceDiff` (sequences as byte lists). -/
inductive SequenceDiff where
  | Mismatch : GenomicInterval → List Nat → SequenceDiff
  | Ins : GenomicInterval → List Nat → SequenceDiff
  | Del : GenomicInterval → SequenceDiff
  | SoftClip : GenomicInterval → List Nat → SequenceDiff
  | RefSkip : GenomicInterval → SequenceDiff
deriving DecidableEq, Repr

/-- `SequenceView`: a subsequence indexed with parent-sequence coordinates. -/
structure SequenceView where
  sequence : List Nat
  offset : Nat
deriving DecidableEq, Repr

/-- `SequenceView::contains`: `pos >= offset && pos - offset < len`. -/
def SequenceView.contains (v : SequenceView) (pos : Nat) : Bool :=
  decide (v.offset ≤ pos) && decide (pos - v.offset < v.sequence.length)

/-- `SequenceView`'s `Index<u64>`: `sequence[(idx - offset)]`.  Every use in
`diff.rs` is guarded by `contains`, so the out-of-range panic is never hit;
the total model defaults to 0. -/
def SequenceView.index (v : SequenceView) (pos : Nat) : Nat :=
  v.sequence.getD (pos - v.offset) 0

/-- One `(Cigar, Option<usize>, Option<u64>)` item of `IterAlignedPairsCigar`:
the operation, the read position, the reference position. -/
abbrev APair := Cigar × Option Nat × Option Nat

/-- `IterAlignedPairsCigar`, run to completion from `genome_pos`/`read_pos`.
Per operation of length `len` it emits one item per base; `SoftClip` advances
the genome position only on its first base (the `len - 1` continuation bases
go through the `remaining_ins_bp` path: read position only, reference
`none`).  `Pad` panics in the source, and a zero `len` makes `len - 1`
underflow; both abnormal stops are `none`. -/
def cigarPairs (genomePos readPos : Nat) : List Cigar → Option (List APair)
  | [] => some []
  | op :: rest =>
    match op with
    | .Match len | .Equal len | .Diff len =>
      if len = 0 then none
      else
        (cigarPairs (genomePos + len) (readPos + len) rest).map (fun tl =>
          ((List.range len).map (fun i =>
            (op, some (readPos + i), some (genomePos + i)))) ++ tl)
    | .Ins len =>
      if len = 0 then none
      else
        (cigarPairs genomePos (readPos + len) rest).map (fun tl =>
          ((List.range len).map (fun i =>
            (op, some (readPos + i), (none : Option Nat)))) ++ tl)
    | .SoftClip len =>
      if len = 0 then none
      else
        (cigarPairs (genomePos + 1) (readPos + len) rest).map (fun tl =>
          ((List.range len).map (fun i =>
            (op, some (readPos + i),
              if i = 0 then some genomePos else (none : Option Nat)))) ++ tl)
    | .Del len | .RefSkip len =>
      if len = 0 then none
      else
        (cigarPairs (genomePos + len) readPos rest).map (fun tl =>
          ((List.range len).map (fun i =>
            (op, (none : Option Nat), some (genomePos + i)))) ++ tl)
    | .HardClip _ => cigarPairs genomePos readPos rest
    | .Pad _ => none

/-- The body of `collapse_diff`'s `loop`-`match` on the current pair:
`some` = the arm that keeps collapsing (extended sequence, updated reference
position), `none` = the `_ => break` arm. -/
def collapseStep (readSeq : List Nat) (p : APair) (acc : List Nat)
    (refPos : Nat) : Option (List Nat × Nat) :=
  match p with
  | (.Ins _, some readPos, none) => some (acc ++ [readSeq.getD readPos 0], refPos)
  | (.Del _, _, some rp) | (.RefSkip _, _, some rp) => some (acc, rp)
  | (.SoftClip _, some readPos, some rp) =>
    some (acc ++ [readSeq.getD readPos 0], rp)
  | _ => none

/-- `collapse_diff`'s `loop`: `cur` is the pair at `aligned_pair_index`,
`rest` the suffix after it.  After a non-break arm the loop peeks at the next
pair and consumes it only if it has the initial pair's variant.  Returns the
accumulated sequence, the final reference position, and the suffix after the
last consumed pair. -/
def collapseGo (readSeq : List Nat) (initialOp : Cigar) :
    APair → List APair → List Nat → Nat → List Nat × Nat × List APair
  | cur, [], acc, refPos =>
    match collapseStep readSeq cur acc refPos with
    | none => (acc, refPos, [])
    | some (acc2, refPos2) => (acc2, refPos2, [])
  | cur, h :: t, acc, refPos =>
    match collapseStep readSeq cur acc refPos with
    | none => (acc, refPos, h :: t)
    | some (acc2, refPos2) =>
      if same_enum_variant h.1 initialOp then
        collapseGo readSeq initialOp h t acc2 refPos2
      else (acc2, refPos2, h :: t)

/-- `DiffAlignments::collapse_diff`, started at pair `initial` with
`current_diff_ref_start = diffRefStart`.  Returns the diff and the suffix of
pairs after the last consumed one; `none` models the `Err` of a failing
interval conversion or the `panic!` on an unexpected initial variant. -/
def collapse_diff (readSeq : List Nat) (diffRefStart : Nat) (initial : APair)
    (rest : List APair) : Option (SequenceDiff × List APair) :=
  match collapseGo readSeq initial.1 initial rest [] diffRefStart with
  | (sequence, currentRefPos, remaining) =>
    match initial.1 with
    | .Ins _ =>
      (GenomicInterval.new diffRefStart currentRefPos).map
        (fun itv => (SequenceDiff.Ins itv sequence, remaining))
    | .SoftClip _ =>
      (GenomicInterval.new diffRefStart (currentRefPos + 1)).map
        (fun itv => (SequenceDiff.SoftClip itv sequence, remaining))
    | .Del _ =>
      (GenomicInterval.new diffRefStart (currentRefPos + 1)).map
        (fun itv => (SequenceDiff.Del itv, remaining))
    | .RefSkip _ =>
      (GenomicInterval.new diffRefStart (currentRefPos + 1)).map
        (fun itv => (SequenceDiff.RefSkip itv, remaining))
    | _ => none

/-- `DiffAlignments::handle_possible_mismatch`: outer `Option` is the
`Result` (the interval `(ref_pos, ref_pos + 1)` never fails), inner `Option`
is "was there a mismatch". -/
def handle_possible_mismatch (refseq : SequenceView) (readSeq : List Nat)
    (readPos refPos : Nat) : Option (Option SequenceDiff) :=
  let readBase := readSeq.getD readPos 0
  let refBase := refseq.index refPos
  if readBase ≠ refBase then
    (GenomicInterval.new refPos (refPos + 1)).map
      (fun itv => some (SequenceDiff.Mismatch itv [readBase]))
  else some none

/-- The `maybe_diff` match of `DiffAlignments::next` for the pair `p` (with
`current_diff_ref_start = start` already updated): `none` = `Err`/panic,
otherwise the optional diff plus the suffix the loop continues from.  `Equal`
pairs fall through to the `_ => None` arm: only `Match` and `Diff` reach
`handle_possible_mismatch`. -/
def diffOne (refseq : SequenceView) (readSeq : List Nat) (start : Nat)
    (p : APair) (rest : List APair) :
    Option (Option SequenceDiff × List APair) :=
  match p with
  | (.Ins _, _, _) | (.SoftClip _, _, _) | (.Del _, _, _) | (.RefSkip _, _, _) =>
    (collapse_diff readSeq start p rest).map (fun r => (some r.1, r.2))
  | (.Match _, some readPos, some refPos)
  | (.Diff _, some readPos, some refPos) =>
    (handle_possible_mismatch refseq readSeq readPos refPos).map
      (fun d => (d, rest))
  | _ => some ((none : Option SequenceDiff), rest)

/-- The `while` loop of `DiffAlignments::next`, run to completion (the diffs
of all `next()` calls, collected): pairs whose reference position is outside
the view are skipped without touching `current_diff_ref_start`; in-view
reference positions become the new diff start.  `fuel` only needs to exceed
the number of pairs (each iteration consumes at least one). -/
def diffLoop (refseq : SequenceView) (readSeq : List Nat) :
    Nat → Nat → List APair → Option (List SequenceDiff)
  | 0, _, _ => none
  | _ + 1, _, [] => some []
  | fuel + 1, start, p :: rest =>
    match p.2.2 with
    | some refPos =>
      if refseq.contains refPos then
        match diffOne refseq readSeq refPos p rest with
        | none => none
        | some (od, remaining) =>
          match od with
          | some d =>
            (diffLoop refseq readSeq fuel refPos remaining).map (fun tl => d :: tl)
          | none => diffLoop refseq readSeq fuel refPos remaining
      else diffLoop refseq readSeq fuel start rest
    | none =>
      match diffOne refseq readSeq start p rest with
      | none => none
      | some (od, remaining) =>
        match od with
        | some d =>
          (diffLoop refseq readSeq fuel start remaining).map (fun tl => d :: tl)
        | none => diffLoop refseq readSeq fuel start remaining

/-- The fields of a htslib `Record` the diff iterator reads: position, CIGAR,
read bytes. -/
structure DiffRecord where
  pos : Nat
  cigar : List Cigar
  seq : List Nat
deriving DecidableEq, Repr

/-- `iter_sequence_diffs` collected into a `Result<Vec<_>>`:
`DiffAlignments::new` sets `current_diff_ref_start = record.pos()` and
materialises the aligned pairs. -/
def iter_sequence_diffs (record : DiffRecord) (refseq : SequenceView) :
    Option (List SequenceDiff) :=
  (cigarPairs record.pos 0 record.cigar).bind (fun pairs =>
    diffLoop refseq record.seq (pairs.length + 1) record.pos pairs)

/-- The reference view of the repo's diff tests: "TTTAGCTAAA" at offset 1000
(`A` = 65, `C` = 67, `G` = 71, `T` = 84). -/
def testView : SequenceView :=
  ⟨[84, 84, 84, 65, 71, 67, 84, 65, 65, 65], 1000⟩

/-- Is a diff a `Mismatch`? -/
def isMismatchB : SequenceDiff → Bool
  | .Mismatch _ _ => true
  | _ => false

/-- Modelled from the spec, amended: the single-base `Mismatch` the diff
output should contain for one aligned-pair item — present exactly for a
`Match` or `Diff` (not `Equal`) base whose reference position lies inside the
view and whose read base differs from the reference base there. -/
def mismatchSpec (refseq : SequenceView) (readSeq : List Nat) :
    APair → Option SequenceDiff
  | (.Match _, some readPos, some refPos) | (.Diff _, some readPos, some refPos) =>
    if refseq.contains refPos then
      if readSeq.getD readPos 0 ≠ refseq.index refPos then
        some (SequenceDiff.Mismatch ⟨refPos, refPos + 1⟩ [readSeq.getD readPos 0])
      else none
    else none
  | _ => none

/-! ## Theorems -/

/-! ### C1 -/

/-- C1: the claim states that `GenomicInterval::overlaps(a, b)` is true iff
`a.start <= b.end && b.start <= a.end`.  The code's second conjunct compares
`a.end` with itself and is always true, so for `a = [0,2)`, `b = [5,10)` the
code returns `true` while the prescribed predicate returns `false`.  The spec
explicitly instructs implementers to treat the observed code as a bug, so
this is a code bug, witnessed here by evaluating both at the failing input. -/
theorem C1_overlaps_code_bug :
    GenomicInterval.overlaps ⟨0, 2⟩ ⟨5, 10⟩ = true ∧
      overlapsSpec ⟨0, 2⟩ ⟨5, 10⟩ = false := by
  decide

/-! ### C3 -/

/-- C3 counterexample: the claim lists the only conditions under which
`check_bounds` may return something other than `WithinRefreshBound`, but the
code's `OutsideBuffered` branch has a fourth disjunct
(`buffered_region.len() > max_render_window`).  A split whose buffered region
is longer than `max_render_window` classifies a candidate satisfying all of
the claim's premises as `OutsideBuffered`. -/
theorem C3_counterexample :
    ¬ (∀ (s : Split) (cand : GenomicRegion),
        cand.len ≤ s.maxRenderWindow →
        cand.seqName = s.bufferedRegion.seqName →
        s.bufferedRegion.start ≤ cand.start →
        cand.end_ ≤ s.bufferedRegion.end_ →
        s.refreshBoundRegion.start ≤ cand.start →
        cand.end_ ≤ s.refreshBoundRegion.end_ →
        s.check_bounds cand = BoundState.WithinRefreshBound) := by
  intro h
  have hc := h ⟨⟨"X", ⟨40, 60⟩⟩, ⟨"X", ⟨0, 100⟩⟩, ⟨"X", ⟨0, 100⟩⟩, 10⟩ ⟨"X", ⟨0, 5⟩⟩
    (by decide) rfl (by decide) (by decide) (by decide) (by decide)
  exact absurd hc (by decide)

/-- C3 (amended): under the claim's premises plus the additional premise that
the buffered region itself is no longer than `max_render_window`,
`check_bounds` returns `WithinRefreshBound`. -/
theorem C3_check_bounds_within_refresh (s : Split) (cand : GenomicRegion)
    (hlen : cand.len ≤ s.maxRenderWindow)
    (hbuf : s.bufferedRegion.len ≤ s.maxRenderWindow)
    (hseq : cand.seqName = s.bufferedRegion.seqName)
    (h1 : s.bufferedRegion.start ≤ cand.start)
    (h2 : cand.end_ ≤ s.bufferedRegion.end_)
    (h3 : s.refreshBoundRegion.start ≤ cand.start)
    (h4 : cand.end_ ≤ s.refreshBoundRegion.end_) :
    s.check_bounds cand = BoundState.WithinRefreshBound := by
  have hA : ¬ s.maxRenderWindow < cand.len := by omega
  have hB : ¬ (cand.seqName ≠ s.bufferedRegion.seqName ∨
      cand.start < s.bufferedRegion.start ∨
      s.bufferedRegion.end_ < cand.end_ ∨
      s.maxRenderWindow < s.bufferedRegion.len) := by
    push_neg
    refine ⟨hseq, ?_, ?_, ?_⟩ <;> omega
  have hC : ¬ (cand.start < s.refreshBoundRegion.start ∨
      s.refreshBoundRegion.end_ < cand.end_) := by
    push_neg
    exact ⟨h3, h4⟩
  simp only [Split.check_bounds, hA, hB, hC, if_false]

/-- C3 witness: the amended theorem applied to a concrete in-bounds split and
candidate. -/
theorem C3_check_bounds_within_refresh_witness :
    Split.check_bounds ⟨⟨"X", ⟨40, 60⟩⟩, ⟨"X", ⟨20, 80⟩⟩, ⟨"X", ⟨30, 70⟩⟩, 10000⟩
      ⟨"X", ⟨40, 60⟩⟩ = BoundState.WithinRefreshBound :=
  C3_check_bounds_within_refresh
    ⟨⟨"X", ⟨40, 60⟩⟩, ⟨"X", ⟨20, 80⟩⟩, ⟨"X", ⟨30, 70⟩⟩, 10000⟩ ⟨"X", ⟨40, 60⟩⟩
    (by decide) (by decide) rfl (by decide) (by decide) (by decide) (by decide)

/-! ### C4 -/

/-- C4 counterexample: `get_refresh_bound_region` expands the focused region
by `len * BUFFER_SIZE / REFRESH_FRACTION`, which does not coincide with
contracting the buffered region by the same amount when the focused length is
odd.  For `focused = X:10-13` (length 3) and contig length 1000, the buffered
region is `X:7-16`, contracting it by `3 * 1 / 2 = 1` yields `X:8-15`, but
the refresh-bound region is `X:9-14`. -/
theorem C4_counterexample :
    ¬ (∀ (f : GenomicRegion) (sl : Nat) (b r : GenomicRegion),
        get_buffered_region f sl = some b →
        get_refresh_bound_region f sl = some r →
        b.contract (f.len * BUFFER_SIZE / REFRESH_FRACTION) = some r) := by
  intro h
  have hc := h ⟨"X", ⟨10, 13⟩⟩ 1000 ⟨"X", ⟨7, 16⟩⟩ ⟨"X", ⟨9, 14⟩⟩ (by decide) (by decide)
  exact absurd hc (by decide)

/-- Helper: expanding a valid region never fails and yields the saturated
endpoints. -/
theorem GenomicRegion.expand_eq (r : GenomicRegion) (amt : Nat)
    (hv : r.interval.start ≤ r.interval.end_) :
    r.expand amt = some ⟨r.seqName, ⟨r.interval.start - amt, r.interval.end_ + amt⟩⟩ := by
  have h : ¬ r.interval.end_ + amt < r.interval.start - amt := by omega
  simp [GenomicRegion.expand, GenomicInterval.expand, GenomicInterval.new, GenomicRegion.new, h]

/-- Helper: contracting a region when neither the u64 subtraction underflows
nor the interval inverts. -/
theorem GenomicRegion.contract_eq (r : GenomicRegion) (amt : Nat)
    (h1 : amt ≤ r.interval.end_)
    (h2 : r.interval.start + amt ≤ r.interval.end_ - amt) :
    r.contract amt = some ⟨r.seqName, ⟨r.interval.start + amt, r.interval.end_ - amt⟩⟩ := by
  have hA : ¬ r.interval.end_ < amt := by omega
  have hB : ¬ r.interval.end_ - amt < r.interval.start + amt := by omega
  simp [GenomicRegion.contract, GenomicInterval.contract, GenomicInterval.new,
    GenomicRegion.new, hA, hB]

/-- Helper: clipping is a no-op when the region already ends at or before the
contig end. -/
theorem clipEnd_eq (r : GenomicRegion) (sl : Nat) (h : r.interval.end_ ≤ sl) :
    clipEnd r sl = r := by
  have hA : ¬ sl < r.interval.end_ := by omega
  simp [clipEnd, hA]

/-- C4 (amended): the refresh-bound region equals the buffered region
contracted by `BUFFER_SIZE * focused.len - focused.len * BUFFER_SIZE /
REFRESH_FRACTION` (with the defaults: L - L/2, the rounded-up half of L, not
the rounded-down half the claim states), provided the focused region is
valid, its start does not saturate when expanding (start at least
`BUFFER_SIZE * len`), and the buffered expansion is not clipped by the contig
end. -/
theorem C4_refresh_eq_buffered_contracted (f : GenomicRegion) (sl : Nat)
    (hv : f.interval.start ≤ f.interval.end_)
    (hs : BUFFER_SIZE * f.len ≤ f.interval.start)
    (he : f.interval.end_ + BUFFER_SIZE * f.len ≤ sl) :
    ∃ b r, get_buffered_region f sl = some b ∧
      get_refresh_bound_region f sl = some r ∧
      b.contract (BUFFER_SIZE * f.len - f.len * BUFFER_SIZE / REFRESH_FRACTION) = some r := by
  have hL : BUFFER_SIZE * f.len = f.len := Nat.one_mul _
  have hd : f.len * BUFFER_SIZE / REFRESH_FRACTION = f.len / 2 := by
    simp [BUFFER_SIZE, REFRESH_FRACTION]
  have hs' : f.len ≤ f.interval.start := by rwa [hL] at hs
  have he' : f.interval.end_ + f.len ≤ sl := by rwa [hL] at he
  refine ⟨⟨f.seqName, ⟨f.interval.start - f.len, f.interval.end_ + f.len⟩⟩,
    ⟨f.seqName, ⟨f.interval.start - f.len / 2, f.interval.end_ + f.len / 2⟩⟩, ?_, ?_, ?_⟩
  · rw [get_buffered_region, hL, GenomicRegion.expand_eq f f.len hv, Option.map_some']
    rw [clipEnd_eq _ _ (by simpa using he')]
  · rw [get_refresh_bound_region, hd, GenomicRegion.expand_eq f (f.len / 2) hv,
      Option.map_some']
    rw [clipEnd_eq _ _ (by simp only; omega)]
  · rw [hL, hd]
    rw [GenomicRegion.contract_eq _ _ (by simp only; omega) (by simp only; omega)]
    have e1 : (f.interval.start - f.len) + (f.len - f.len / 2) = f.interval.start - f.len / 2 := by
      omega
    have e2 : (f.interval.end_ + f.len) - (f.len - f.len / 2) = f.interval.end_ + f.len / 2 := by
      omega
    simp only [e1, e2]

/-- C4 witness: the amended equality at the concrete focused region X:10-14
(even length 4) with contig length 1000: buffered X:6-18, refresh-bound
X:8-16, and contracting the buffered region by 4 - 2 = 2 gives X:8-16. -/
theorem C4_refresh_eq_buffered_contracted_witness :
    ∃ b r, get_buffered_region ⟨"X", ⟨10, 14⟩⟩ 1000 = some b ∧
      get_refresh_bound_region ⟨"X", ⟨10, 14⟩⟩ 1000 = some r ∧
      b.contract (BUFFER_SIZE * GenomicRegion.len ⟨"X", ⟨10, 14⟩⟩ -
        GenomicRegion.len ⟨"X", ⟨10, 14⟩⟩ * BUFFER_SIZE / REFRESH_FRACTION) = some r :=
  C4_refresh_eq_buffered_contracted ⟨"X", ⟨10, 14⟩⟩ 1000 (by decide) (by decide) (by decide)

/-! ### Byte-string order facts -/

theorem leB_refl : ∀ a, leB a a = true := by
  intro a
  induction a with
  | nil => rfl
  | cons x xs ih => simp [leB, ih]

theorem leB_total : ∀ a b, leB a b = true ∨ leB b a = true := by
  intro a
  induction a with
  | nil => intro b; left; rfl
  | cons x xs ih =>
    intro b
    cases b with
    | nil => right; rfl
    | cons y ys =>
      rcases Nat.lt_trichotomy x y with h | h | h
      · left; simp [leB, h]
      · rcases ih ys with h2 | h2
        · left; simp [leB, show ¬ x < y by omega, show ¬ y < x by omega, h2]
        · right; simp [leB, show ¬ x < y by omega, show ¬ y < x by omega, h2]
      · right; simp [leB, h]

theorem leB_trans : ∀ a b c, leB a b = true → leB b c = true → leB a c = true := by
  intro a
  induction a with
  | nil => intro b c _ _; rfl
  | cons x xs ih =>
    intro b c hab hbc
    cases b with
    | nil => simp [leB] at hab
    | cons y ys =>
      cases c with
      | nil => simp [leB] at hbc
      | cons z zs =>
        simp only [leB] at hab hbc ⊢
        rcases Nat.lt_trichotomy x y with h1 | h1 | h1
        · rcases Nat.lt_trichotomy y z with h2 | h2 | h2
          · simp [show x < z by omega]
          · simp [show x < z by omega]
          · simp [show ¬ y < z by omega, h2] at hbc
        · rcases Nat.lt_trichotomy y z with h2 | h2 | h2
          · simp [show x < z by omega]
          · simp [show ¬ x < y by omega, show ¬ y < x by omega] at hab
            simp [show ¬ y < z by omega, show ¬ z < y by omega] at hbc
            simp [show ¬ x < z by omega, show ¬ z < x by omega]
            exact ih ys zs hab hbc
          · simp [show ¬ y < z by omega, h2] at hbc
        · simp [show ¬ x < y by omega, h1] at hab

theorem ltB_leB_false : ∀ a b, ltB a b = true → leB b a = true → False := by
  intro a
  induction a with
  | nil =>
    intro b h1 h2
    cases b with
    | nil => simp [ltB] at h1
    | cons y ys => simp [leB] at h2
  | cons x xs ih =>
    intro b h1 h2
    cases b with
    | nil => simp [ltB] at h1
    | cons y ys =>
      simp only [ltB] at h1
      simp only [leB] at h2
      rcases Nat.lt_trichotomy x y with h | h | h
      · simp [h, show ¬ y < x by omega] at h2
      · simp [show ¬ x < y by omega, show ¬ y < x by omega] at h1 h2
        exact ih ys h1 h2
      · simp [show ¬ x < y by omega, h] at h1

instance : IsTotal Aln startLe := by
  constructor
  intro a b
  rcases Nat.lt_trichotomy a.start b.start with h | h | h
  · exact Or.inl (Or.inl h)
  · rcases leB_total a.id b.id with h2 | h2
    · exact Or.inl (Or.inr ⟨h, h2⟩)
    · exact Or.inr (Or.inr ⟨h.symm, h2⟩)
  · exact Or.inr (Or.inl h)

instance : IsTrans Aln startLe := by
  constructor
  intro a b c hab hbc
  rcases hab with h1 | ⟨h1, h1'⟩ <;> rcases hbc with h2 | ⟨h2, h2'⟩
  · exact Or.inl (by omega)
  · exact Or.inl (by omega)
  · exact Or.inl (by omega)
  · exact Or.inr ⟨by omega, leB_trans _ _ _ h1' h2'⟩

instance : IsTotal Aln endLe := by
  constructor
  intro a b
  rcases Nat.lt_trichotomy a.end_ b.end_ with h | h | h
  · exact Or.inl (Or.inl h)
  · rcases leB_total a.id b.id with h2 | h2
    · exact Or.inl (Or.inr ⟨h, h2⟩)
    · exact Or.inr (Or.inr ⟨h.symm, h2⟩)
  · exact Or.inr (Or.inl h)

instance : IsTrans Aln endLe := by
  constructor
  intro a b c hab hbc
  rcases hab with h1 | ⟨h1, h1'⟩ <;> rcases hbc with h2 | ⟨h2, h2'⟩
  · exact Or.inl (by omega)
  · exact Or.inl (by omega)
  · exact Or.inl (by omega)
  · exact Or.inr ⟨by omega, leB_trans _ _ _ h1' h2'⟩

/-! ### C9: search_after correctness -/

/-- Loop invariant of `search_after`'s binary search: starting from bounds
`low ≤ high` with enough fuel and an upper index whose start already meets
`minStart`, the loop returns an index between the bounds whose start meets
`minStart`.  No sortedness is needed for this part. -/
theorem searchAfterGo_spec (l : List Aln) (m : Nat) :
    ∀ (fuel low high : Nat), low ≤ high → high - low ≤ fuel →
      m ≤ (l.getD high dummyAln).start →
      low ≤ searchAfterGo l m fuel low high ∧
        searchAfterGo l m fuel low high ≤ high ∧
        m ≤ (l.getD (searchAfterGo l m fuel low high) dummyAln).start := by
  intro fuel
  induction fuel with
  | zero =>
    intro low high h1 h2 h3
    have heq : low = high := by omega
    subst heq
    simpa [searchAfterGo] using h3
  | succ n ih =>
    intro low high h1 h2 h3
    by_cases hlh : low < high
    · by_cases hcmp : (l.getD ((low + high) / 2) dummyAln).start < m
      · have hrec := ih ((low + high) / 2 + 1) high (by omega) (by omega) h3
        simp only [searchAfterGo, if_pos hlh, if_pos hcmp]
        exact ⟨by omega, hrec.2.1, hrec.2.2⟩
      · have hmid : m ≤ (l.getD ((low + high) / 2) dummyAln).start := by omega
        have hrec := ih low ((low + high) / 2) (by omega) (by omega) hmid
        simp only [searchAfterGo, if_pos hlh, if_neg hcmp]
        exact ⟨hrec.1, by omega, hrec.2.2⟩
    · simp only [searchAfterGo, if_neg hlh]
      have heq : low = high := by omega
      subst heq
      exact ⟨le_refl _, le_refl _, h3⟩

/-- Under start-monotonicity, every index strictly below the loop's result
has start below `minStart`: the loop returns the least qualifying index. -/
theorem searchAfterGo_below (l : List Aln) (m : Nat)
    (hmono : ∀ i j, i ≤ j → j < l.length →
      (l.getD i dummyAln).start ≤ (l.getD j dummyAln).start) :
    ∀ (fuel low high : Nat), high < l.length → low ≤ high → high - low ≤ fuel →
      (∀ k, k < low → (l.getD k dummyAln).start < m) →
      ∀ j, j < searchAfterGo l m fuel low high → (l.getD j dummyAln).start < m := by
  intro fuel
  induction fuel with
  | zero =>
    intro low high hh h1 h2 hpre j hj
    simp only [searchAfterGo] at hj
    exact hpre j hj
  | succ n ih =>
    intro low high hh h1 h2 hpre j hj
    by_cases hlh : low < high
    · by_cases hcmp : (l.getD ((low + high) / 2) dummyAln).start < m
      · simp only [searchAfterGo, if_pos hlh, if_pos hcmp] at hj
        refine ih ((low + high) / 2 + 1) high hh (by omega) (by omega) ?_ j hj
        intro k hk
        have := hmono k ((low + high) / 2) (by omega) (by omega)
        omega
      · simp only [searchAfterGo, if_pos hlh, if_neg hcmp] at hj
        exact ih low ((low + high) / 2) (by omega) (by omega) (by omega) hpre j hj
    · simp only [searchAfterGo, if_neg hlh] at hj
      exact hpre j hj

/-- If `search_after` answers `some i`, then `i` is in bounds and the element
there meets the bound. -/
theorem search_after_some (l : List Aln) (m i : Nat)
    (h : search_after l m = some i) :
    i < l.length ∧ m ≤ (l.getD i dummyAln).start := by
  unfold search_after at h
  split at h
  · exact absurd h (by simp)
  · rename_i last hl
    split at h
    · exact absurd h (by simp)
    · rename_i hlt
      have hne : l ≠ [] := by
        intro e
        rw [e] at hl
        exact absurd hl (by simp)
      have hpos : 0 < l.length := List.length_pos.mpr hne
      have hlast : l.getD (l.length - 1) dummyAln = last := by
        rw [List.getD_eq_getElem?_getD, ← List.getLast?_eq_getElem?, hl]
        rfl
      have hspec := searchAfterGo_spec l m l.length 0 (l.length - 1)
        (by omega) (by omega) (by rw [hlast]; omega)
      have hi : i = searchAfterGo l m l.length 0 (l.length - 1) := by
        injection h with h
        exact h.symm
      subst hi
      exact ⟨by omega, hspec.2.2⟩

/-- Start-monotonicity of a `(start, id)`-sorted list, in `getD` form. -/
theorem pairwise_startLe_mono (l : List Aln) (hs : l.Pairwise startLe) :
    ∀ i j, i ≤ j → j < l.length →
      (l.getD i dummyAln).start ≤ (l.getD j dummyAln).start := by
  intro i j hij hj
  rcases Nat.eq_or_lt_of_le hij with he | hlt
  · subst he; exact le_refl _
  · have hi : i < l.length := by omega
    have hsl := List.pairwise_iff_getElem.mp hs i j hi hj hlt
    rw [List.getD_eq_getElem?_getD, List.getD_eq_getElem?_getD,
      List.getElem?_eq_getElem hi, List.getElem?_eq_getElem hj]
    rcases hsl with h | ⟨h, _⟩
    · exact le_of_lt h
    · exact le_of_eq h

/-- C9: for every `(start, id)`-sorted list, `search_after(min_start)`
returns the least index whose element has start at least `min_start` when one
exists, and no match when the list is empty or every start is below the
bound; moreover the spec's concrete examples hold on the index built from
intervals (0,10),(1,11),(1,12),(10,20),(11,22) with ids 0..4, including the
answer-is-index-0 case (no underflow of the high bound). -/
theorem C9_search_after_correct :
    (∀ (l : List Aln) (m : Nat), l.Pairwise startLe →
      (((search_after l m).isSome ↔ ∃ a ∈ l, m ≤ a.start) ∧
        ∀ i, search_after l m = some i →
          i < l.length ∧ m ≤ (l.getD i dummyAln).start ∧
            ∀ j, j < i → (l.getD j dummyAln).start < m)) ∧
    search_after (sortByStart exAlns) 0 = some 0 ∧
    search_after (sortByStart exAlns) 1 = some 1 ∧
    search_after (sortByStart exAlns) 2 = some 3 ∧
    search_after (sortByStart exAlns) 11 = some 4 ∧
    search_after ([] : List Aln) 0 = none ∧
    search_after (sortByStart exAlns) 23 = none := by
  refine ⟨?_, by decide, by decide, by decide, by decide, by decide, by decide⟩
  intro l m hs
  have hmono := pairwise_startLe_mono l hs
  refine ⟨⟨?_, ?_⟩, ?_⟩
  · intro hsome
    rw [Option.isSome_iff_exists] at hsome
    obtain ⟨i, hi⟩ := hsome
    obtain ⟨hlen, hstart⟩ := search_after_some l m i hi
    refine ⟨l.getD i dummyAln, ?_, hstart⟩
    rw [List.getD_eq_getElem?_getD, List.getElem?_eq_getElem hlen]
    exact List.getElem_mem hlen
  · rintro ⟨a, ha, hm⟩
    have hne : l ≠ [] := by rintro rfl; exact absurd ha (by simp)
    have hpos : 0 < l.length := List.length_pos.mpr hne
    unfold search_after
    split
    · rename_i hl
      exact absurd (List.getLast?_eq_none_iff.mp hl) hne
    · rename_i last hl
      have hlast : l.getD (l.length - 1) dummyAln = last := by
        rw [List.getD_eq_getElem?_getD, ← List.getLast?_eq_getElem?, hl]
        rfl
      obtain ⟨j, hj, haj⟩ := List.mem_iff_getElem.mp ha
      have hjd : l.getD j dummyAln = a := by
        rw [List.getD_eq_getElem?_getD, List.getElem?_eq_getElem hj, haj]
        rfl
      have hml : m ≤ last.start := by
        have := hmono j (l.length - 1) (by omega) (by omega)
        rw [hjd, hlast] at this
        omega
      rw [if_neg (by omega)]
      simp
  · intro i hi
    obtain ⟨hlen, hstart⟩ := search_after_some l m i hi
    refine ⟨hlen, hstart, ?_⟩
    unfold search_after at hi
    split at hi
    · exact absurd hi (by simp)
    · rename_i last hl
      split at hi
      · exact absurd hi (by simp)
      · rename_i hlt
        have hieq : i = searchAfterGo l m l.length 0 (l.length - 1) := by
          injection hi with hi
          exact hi.symm
        subst hieq
        exact searchAfterGo_below l m hmono l.length 0 (l.length - 1)
          (by omega) (by omega) (by omega) (by omega)

/-- C9 witness: the general statement instantiated at the concrete example
index with min_start 2 (the claim's search_after(2) case), the sortedness
hypothesis discharged by evaluation. -/
theorem C9_search_after_correct_witness :
    (search_after (sortByStart exAlns) 2).isSome = true := by
  have h := (C9_search_after_correct.1 (sortByStart exAlns) 2 (by decide)).1
  exact h.mpr ⟨⟨[51], 10, 20⟩, by decide, by decide⟩

/-! ### pop_after / pop_before facts (used by the stack proofs) -/

/-- Loop invariant of `search_before`'s binary search: the lower index's end
stays within the bound, so the returned index's element does too. -/
theorem searchBeforeGo_spec (l : List Aln) (me : Nat) :
    ∀ (fuel low high : Nat), low ≤ high → high - low ≤ fuel →
      (l.getD low dummyAln).end_ ≤ me →
      low ≤ searchBeforeGo l me fuel low high ∧
        searchBeforeGo l me fuel low high ≤ high ∧
        (l.getD (searchBeforeGo l me fuel low high) dummyAln).end_ ≤ me := by
  intro fuel
  induction fuel with
  | zero =>
    intro low high h1 h2 h3
    have heq : low = high := by omega
    subst heq
    simpa [searchBeforeGo] using h3
  | succ n ih =>
    intro low high h1 h2 h3
    by_cases hlh : low < high
    · by_cases hcmp : me < (l.getD ((low + high) / 2 + 1) dummyAln).end_
      · have hrec := ih low ((low + high) / 2 + 1 - 1) (by omega) (by omega) h3
        simp only [searchBeforeGo, if_pos hlh, if_pos hcmp]
        exact ⟨hrec.1, by omega, hrec.2.2⟩
      · have hrec := ih ((low + high) / 2 + 1) high (by omega) (by omega) (by omega)
        simp only [searchBeforeGo, if_pos hlh, if_neg hcmp]
        exact ⟨by omega, hrec.2.1, hrec.2.2⟩
    · simp only [searchBeforeGo, if_neg hlh]
      have heq : low = high := by omega
      subst heq
      exact ⟨le_refl _, le_refl _, h3⟩

/-- If `search_before` answers `some i`, then `i` is in bounds and the
element there is within the bound. -/
theorem search_before_some (l : List Aln) (me i : Nat)
    (h : search_before l me = some i) :
    i < l.length ∧ (l.getD i dummyAln).end_ ≤ me := by
  unfold search_before at h
  split at h
  · exact absurd h (by simp)
  · rename_i first hl
    split at h
    · exact absurd h (by simp)
    · rename_i hlt
      have hne : l ≠ [] := by
        intro e
        rw [e] at hl
        exact absurd hl (by simp)
      have hpos : 0 < l.length := List.length_pos.mpr hne
      have hfirst : l.getD 0 dummyAln = first := by
        cases l with
        | nil => exact absurd rfl hne
        | cons x xs =>
          simp only [List.head?_cons, Option.some.injEq] at hl
          simp [hl]
      have hspec := searchBeforeGo_spec l me l.length 0 (l.length - 1)
        (by omega) (by omega) (by rw [hfirst]; omega)
      have hieq : i = searchBeforeGo l me l.length 0 (l.length - 1) := by
        injection h with h
        exact h.symm
      subst hieq
      exact ⟨by omega, hspec.2.2⟩

/-- What a successful `pop_after` guarantees: the popped element starts at or
after the bound, was a member, and the remainder is one element shorter and a
sublist. -/
theorem pop_after_spec (l : List Aln) (m : Nat) (a : Aln) (rest : List Aln)
    (h : pop_after l m = some (a, rest)) :
    m ≤ a.start ∧ a ∈ l ∧ rest.Sublist l ∧ rest.length + 1 = l.length := by
  unfold pop_after at h
  cases hs : search_after l m with
  | none => rw [hs] at h; exact absurd h (by simp)
  | some i =>
    rw [hs] at h
    simp only [Option.map_some', Option.some.injEq, Prod.mk.injEq] at h
    obtain ⟨h1, h2⟩ := h
    obtain ⟨hlen, hstart⟩ := search_after_some l m i hs
    subst h1
    subst h2
    refine ⟨hstart, ?_, List.eraseIdx_sublist l i, ?_⟩
    · rw [List.getD_eq_getElem?_getD, List.getElem?_eq_getElem hlen]
      exact List.getElem_mem hlen
    · rw [List.length_eraseIdx_of_lt hlen]
      omega

/-- What a successful `pop_before` guarantees. -/
theorem pop_before_spec (l : List Aln) (me : Nat) (a : Aln) (rest : List Aln)
    (h : pop_before l me = some (a, rest)) :
    a.end_ ≤ me ∧ a ∈ l ∧ rest.Sublist l ∧ rest.length + 1 = l.length := by
  unfold pop_before at h
  cases hs : search_before l me with
  | none => rw [hs] at h; exact absurd h (by simp)
  | some i =>
    rw [hs] at h
    simp only [Option.map_some', Option.some.injEq, Prod.mk.injEq] at h
    obtain ⟨h1, h2⟩ := h
    obtain ⟨hlen, hend⟩ := search_before_some l me i hs
    subst h1
    subst h2
    refine ⟨hend, ?_, List.eraseIdx_sublist l i, ?_⟩
    · rw [List.getD_eq_getElem?_getD, List.getElem?_eq_getElem hlen]
      exact List.getElem_mem hlen
    · rw [List.length_eraseIdx_of_lt hlen]
      omega

/-- `pop_before` succeeds whenever the list is nonempty and its first
element's end is within the bound (the O(1) short-circuit). -/
theorem pop_before_isSome (l : List Aln) (me : Nat) (hne : l ≠ [])
    (hh : (l.headD dummyAln).end_ ≤ me) : (pop_before l me).isSome := by
  unfold pop_before search_before
  cases l with
  | nil => exact absurd rfl hne
  | cons x xs =>
    simp only [List.head?_cons]
    rw [if_neg (by simp only [List.headD_cons] at hh; omega)]
    simp

/-! ### replace_duplicates facts -/

/-- A push succeeds when the list's last element is at or below the pushed
value in the `(start, id)` order. -/
theorem pushStartSorted_some (updated : List Aln) (a : Aln)
    (hlast : ∀ u, updated.getLast? = some u → startLe u a) :
    pushStartSorted updated a = some (updated ++ [a]) := by
  unfold pushStartSorted
  split
  · rename_i last hl
    have hne : ¬ (a.start < last.start ∨ (a.start = last.start ∧ ltB a.id last.id = true)) := by
      rintro (h | ⟨h1, h2⟩)
      · rcases hlast last hl with h' | ⟨h', _⟩ <;> omega
      · rcases hlast last hl with h' | ⟨h', h3⟩
        · omega
        · exact ltB_leB_false a.id last.id h2 h3
    rw [if_neg hne]
  · rfl

/-- The reconciliation walk cannot fail on a `(start, id)`-sorted incoming
list whose elements all dominate the pushed prefix: its pushes are a
subsequence of a sorted list. -/
theorem rdGo_isSome (incoming : List Aln) :
    ∀ (slots : List Slot) (stackIdx : Nat) (updated : List Aln),
      incoming.Pairwise startLe →
      (∀ u, updated.getLast? = some u → ∀ a ∈ incoming, startLe u a) →
      (rdGo slots stackIdx updated incoming).isSome := by
  induction incoming with
  | nil => intro slots stackIdx updated _ _; simp [rdGo]
  | cons a rest ih =>
    intro slots stackIdx updated hsorted hlast
    simp only [rdGo]
    split
    · exact ih _ _ _ (List.Pairwise.of_cons hsorted)
        (fun u hu b hb => hlast u hu b (List.mem_cons_of_mem a hb))
    · rw [pushStartSorted_some updated a (fun u hu => hlast u hu a (List.mem_cons_self a rest))]
      refine ih _ _ _ (List.Pairwise.of_cons hsorted) ?_
      intro u hu b hb
      rw [List.getLast?_concat] at hu
      injection hu with hu
      subst hu
      exact (List.pairwise_cons.mp hsorted).1 b hb

/-- When no incoming id occurs among the slots, the walk replaces nothing:
the slots are returned unchanged and every incoming alignment is appended to
`updated` in order. -/
theorem rdGo_no_match (incoming : List Aln) :
    ∀ (slots : List Slot) (stackIdx : Nat) (updated : List Aln),
      incoming.Pairwise startLe →
      (∀ u, updated.getLast? = some u → ∀ a ∈ incoming, startLe u a) →
      (∀ a ∈ incoming, ∀ z ∈ slots, a.id ≠ z.2.id) →
      rdGo slots stackIdx updated incoming = some (slots, updated ++ incoming) := by
  induction incoming with
  | nil => intro slots stackIdx updated _ _ _; simp [rdGo]
  | cons a rest ih =>
    intro slots stackIdx updated hsorted hlast hdisj
    simp only [rdGo]
    have hnc : ¬ ((rdAdvance slots a.start slots.length stackIdx) < slots.length ∧
        a.id = (slots.getD (rdAdvance slots a.start slots.length stackIdx) dummySlot).2.id) := by
      rintro ⟨hlt, heq⟩
      have hmem : slots.getD (rdAdvance slots a.start slots.length stackIdx) dummySlot ∈ slots := by
        rw [List.getD_eq_getElem?_getD, List.getElem?_eq_getElem hlt]
        exact List.getElem_mem hlt
      exact hdisj a (List.mem_cons_self a rest) _ hmem heq
    rw [if_neg hnc]
    rw [pushStartSorted_some updated a (fun u hu => hlast u hu a (List.mem_cons_self a rest))]
    have hres := ih slots (rdAdvance slots a.start slots.length stackIdx) (updated ++ [a])
      (List.Pairwise.of_cons hsorted)
      (by
        intro u hu b hb
        rw [List.getLast?_concat] at hu
        injection hu with hu
        subst hu
        exact (List.pairwise_cons.mp hsorted).1 b hb)
      (fun b hb z hz => hdisj b (List.mem_cons_of_mem a hb) z hz)
    rw [show ((match some (updated ++ [a]) with
        | some updated2 => rdGo slots (rdAdvance slots a.start slots.length stackIdx) updated2 rest
        | none => none) : Option (List Slot × List Aln)) =
        rdGo slots (rdAdvance slots a.start slots.length stackIdx) (updated ++ [a]) rest from rfl]
    rw [hres]
    simp

/-- A slot of `slotsOf rows` records exactly the entry of `rows` at its
coordinate. -/
theorem slotsOf_mem_value (rows : List (List Aln)) (ri ci : Nat) (v : Aln)
    (h : ((ri, ci), v) ∈ slotsOf rows) :
    ri < rows.length ∧ ci < (rows.getD ri []).length ∧
      (rows.getD ri []).getD ci dummyAln = v := by
  unfold slotsOf at h
  rw [List.mem_flatten] at h
  obtain ⟨block, hblock, hmem⟩ := h
  rw [List.mem_map] at hblock
  obtain ⟨p, hp, hpeq⟩ := hblock
  subst hpeq
  rw [List.mem_map] at hmem
  obtain ⟨q, hq, hqeq⟩ := hmem
  simp only [Prod.mk.injEq] at hqeq
  obtain ⟨⟨he1, he2⟩, he3⟩ := hqeq
  subst he1
  subst he2
  subst he3
  have hp' : rows[p.1]? = some p.2 :=
    List.mk_mem_enum_iff_getElem?.mp (show (p.1, p.2) ∈ rows.enum from hp)
  have hq' : p.2[q.1]? = some q.2 :=
    List.mk_mem_enum_iff_getElem?.mp (show (q.1, q.2) ∈ p.2.enum from hq)
  have hlen : p.1 < rows.length := by
    by_contra hcon
    rw [List.getElem?_eq_none_iff.mpr (by omega)] at hp'
    exact absurd hp' (by simp)
  have hrow : rows.getD p.1 [] = p.2 := by
    rw [List.getD_eq_getElem?_getD, hp']
    rfl
  have hlen2 : q.1 < p.2.length := by
    by_contra hcon
    rw [List.getElem?_eq_none_iff.mpr (by omega)] at hq'
    exact absurd hq' (by simp)
  refine ⟨hlen, by rw [hrow]; exact hlen2, ?_⟩
  rw [hrow, List.getD_eq_getElem?_getD, hq']
  rfl

/-- Every slot's alignment is an entry of some row. -/
theorem slotsOf_mem_row (rows : List (List Aln)) (z : Slot) (h : z ∈ slotsOf rows) :
    ∃ row ∈ rows, z.2 ∈ row := by
  obtain ⟨⟨ri, ci⟩, v⟩ := z
  obtain ⟨h1, h2, h3⟩ := slotsOf_mem_value rows ri ci v h
  refine ⟨rows.getD ri [], ?_, ?_⟩
  · rw [List.getD_eq_getElem?_getD, List.getElem?_eq_getElem h1]
    exact List.getElem_mem h1
  · show v ∈ rows.getD ri []
    rw [← h3]
    rw [List.getD_eq_getElem?_getD (rows.getD ri []), List.getElem?_eq_getElem h2]
    exact List.getElem_mem h2

/-- Writing back slots whose contents all already agree with the rows they
came from is the identity. -/
theorem applySlots_eq_self (rows : List (List Aln)) (slots : List Slot)
    (hsub : ∀ z ∈ slots, z ∈ slotsOf rows) :
    applySlots rows slots = rows := by
  unfold applySlots
  refine List.ext_getElem (by simp) ?_
  intro i hi1 hi2
  rw [List.getElem_mapIdx]
  refine List.ext_getElem (by simp) ?_
  intro j hj1 hj2
  rw [List.getElem_mapIdx]
  cases hf : slots.find? (fun s => s.1 == (i, j)) with
  | none => rfl
  | some s =>
    have hmem : s ∈ slots := List.mem_of_find?_eq_some hf
    have hpred : s.1 = (i, j) := by
      have := List.find?_some hf
      simpa using this
    have hmem2 : ((i, j), s.2) ∈ slotsOf rows := by
      have := hsub s hmem
      rwa [show s = ((i, j), s.2) from by rw [← hpred]] at this
    obtain ⟨hr1, hr2, hr3⟩ := slotsOf_mem_value rows i j s.2 hmem2
    show s.2 = rows[i][j]
    have hrg : rows.getD i [] = rows[i] := by
      rw [List.getD_eq_getElem?_getD, List.getElem?_eq_getElem hr1]
      rfl
    rw [hrg] at hr2 hr3
    rw [← hr3, List.getD_eq_getElem?_getD, List.getElem?_eq_getElem hr2]
    rfl

/-- `replace_duplicates` with sorted incoming alignments whose ids are all
absent from the stack: the rows are untouched and every incoming alignment
is returned as novel, in order. -/
theorem replace_duplicates_disjoint (s : AlignmentStack) (v : List Aln)
    (hsorted : v.Pairwise startLe)
    (hdisj : ∀ a ∈ v, ∀ row ∈ s.rows, ∀ b ∈ row, a.id ≠ b.id) :
    s.replace_duplicates v = some (s, v) := by
  have hperm := List.perm_insertionSort slotLe (slotsOf s.rows)
  have hdisj2 : ∀ a ∈ v, ∀ z ∈ (slotsOf s.rows).insertionSort slotLe, a.id ≠ z.2.id := by
    intro a ha z hz
    obtain ⟨row, hrow, hbmem⟩ := slotsOf_mem_row s.rows z (hperm.mem_iff.mp hz)
    exact hdisj a ha row hrow z.2 hbmem
  show Option.map _ (rdGo ((slotsOf s.rows).insertionSort slotLe) 0 [] v) = _
  rw [rdGo_no_match v _ 0 [] hsorted (by intro u hu; simp at hu) hdisj2]
  rw [Option.map_some']
  rw [applySlots_eq_self s.rows _ (fun z hz => hperm.mem_iff.mp hz)]
  simp

/-! ### extend_stack facts -/

/-- The leftover alignments of a right-extension are a sublist of the input
(each pop erases one index). -/
theorem extendRowRight_sublist (fuel : Nat) :
    ∀ (row aligns : List Aln) (minStart : Nat),
      (extendRowRight fuel row aligns minStart).2.Sublist aligns := by
  induction fuel with
  | zero => intro row aligns minStart; exact List.Sublist.refl _
  | succ n ih =>
    intro row aligns minStart
    simp only [extendRowRight]
    cases hp : pop_after aligns minStart with
    | none => exact List.Sublist.refl _
    | some p =>
      obtain ⟨a, rest⟩ := p
      obtain ⟨_, _, hsub, _⟩ := pop_after_spec aligns minStart a rest hp
      exact (ih (row ++ [a]) rest _).trans hsub

/-- The leftover alignments of a left-extension are a sublist of the input. -/
theorem extendRowLeft_sublist (fuel : Nat) :
    ∀ (row aligns : List Aln) (maxEnd : Nat),
      (extendRowLeft fuel row aligns maxEnd).2.Sublist aligns := by
  induction fuel with
  | zero => intro row aligns maxEnd; exact List.Sublist.refl _
  | succ n ih =>
    intro row aligns maxEnd
    simp only [extendRowLeft]
    cases hp : pop_before aligns maxEnd with
    | none => exact List.Sublist.refl _
    | some p =>
      obtain ⟨a, rest⟩ := p
      obtain ⟨_, _, hsub, _⟩ := pop_before_spec aligns maxEnd a rest hp
      exact (ih (a :: row) rest (a.start - PADDING)).trans hsub

/-- The leftovers of the `extend_stack_right` row loop are a sublist of the
input alignments. -/
theorem extendStackRightGo_sublist (rows : List (List Aln)) :
    ∀ aligns, (extendStackRightGo rows aligns).2.Sublist aligns := by
  induction rows with
  | nil => intro aligns; exact List.Sublist.refl _
  | cons row rest ih =>
    intro aligns
    simp only [extendStackRightGo]
    exact (ih _).trans (extendRowRight_sublist _ _ _ _)

/-- With the padded end within u64, the wrapped addition computes exactly. -/
theorem mod_u64_of_bounded (n : Nat) (h : n + PADDING ≤ U64MAX) :
    (n + PADDING) % 2 ^ 64 = n + PADDING :=
  Nat.mod_eq_of_lt (lt_of_le_of_lt h (by decide))

theorem getLast_mem_of_eq (l : List Aln) (a : Aln) (h : l.getLast? = some a) :
    a ∈ l := by
  induction l with
  | nil => exact absurd h (by simp)
  | cons x t ih =>
    cases t with
    | nil =>
      simp only [List.getLast?_singleton, Option.some.injEq] at h
      subst h
      exact List.mem_singleton_self _
    | cons y t2 =>
      rw [List.getLast?_cons_cons] at h
      exact List.mem_cons_of_mem _ (ih h)

/-- Right-extending one row preserves the packed-gap invariant: every popped
alignment starts at or after the running bound, which begins past the row's
current entries (the bound addition cannot wrap for bounded alignments). -/
theorem extendRowRight_inv (fuel : Nat) :
    ∀ (row aligns : List Aln) (minStart : Nat),
      rowGap row → (∀ a ∈ row, validAln a ∧ boundedAln a) →
      (∀ a ∈ aligns, validAln a ∧ boundedAln a) →
      (∀ x ∈ row, x.end_ + PADDING ≤ minStart) →
      rowGap (extendRowRight fuel row aligns minStart).1 ∧
        ∀ a ∈ (extendRowRight fuel row aligns minStart).1, validAln a ∧ boundedAln a := by
  induction fuel with
  | zero => intro row aligns minStart hg hv _ _; exact ⟨hg, hv⟩
  | succ n ih =>
    intro row aligns minStart hg hv ha hm
    simp only [extendRowRight]
    cases hp : pop_after aligns minStart with
    | none => exact ⟨hg, hv⟩
    | some p =>
      obtain ⟨a, rest⟩ := p
      obtain ⟨hstart, hmemA, hsub, _⟩ := pop_after_spec aligns minStart a rest hp
      have hP : PADDING = 1 := rfl
      have hva := ha a hmemA
      have hmod : (a.end_ + PADDING) % 2 ^ 64 = a.end_ + PADDING :=
        mod_u64_of_bounded a.end_ hva.2
      have hg' : rowGap (row ++ [a]) := by
        unfold rowGap at hg ⊢
        rw [List.pairwise_append]
        refine ⟨hg, List.pairwise_singleton _ _, ?_⟩
        intro x hx y hy
        rw [List.mem_singleton] at hy
        subst hy
        have := hm x hx
        omega
      have hv' : ∀ b ∈ row ++ [a], validAln b ∧ boundedAln b := by
        intro b hb
        rcases List.mem_append.mp hb with h | h
        · exact hv b h
        · rw [List.mem_singleton] at h; subst h; exact hva
      have hm' : ∀ x ∈ row ++ [a], x.end_ + PADDING ≤ a.end_ + PADDING := by
        intro x hx
        rcases List.mem_append.mp hx with h | h
        · have h1 := hm x h
          have h2 : a.start < a.end_ := hva.1
          omega
        · rw [List.mem_singleton] at h; subst h; exact le_refl _
      show rowGap (extendRowRight n (row ++ [a]) rest ((a.end_ + PADDING) % 2 ^ 64)).1 ∧
        ∀ b ∈ (extendRowRight n (row ++ [a]) rest ((a.end_ + PADDING) % 2 ^ 64)).1,
          validAln b ∧ boundedAln b
      rw [hmod]
      exact ih (row ++ [a]) rest (a.end_ + PADDING) hg' hv'
        (fun b hb => ha b (hsub.subset hb)) hm'

/-- Within a packed, valid row, every entry ends at or before the last
entry's end. -/
theorem rowGap_last_bound (row : List Aln) :
    rowGap row → (∀ a ∈ row, validAln a) →
    ∀ last, row.getLast? = some last → ∀ x ∈ row, x.end_ ≤ last.end_ := by
  induction row with
  | nil => intro _ _ last h; exact absurd h (by simp)
  | cons y t ih =>
    intro hg hv last hl x hx
    cases t with
    | nil =>
      simp only [List.getLast?_singleton, Option.some.injEq] at hl
      subst hl
      rw [List.mem_singleton] at hx
      subst hx
      exact le_refl _
    | cons z t2 =>
      rw [List.getLast?_cons_cons] at hl
      have hgt : rowGap (z :: t2) := List.Pairwise.of_cons hg
      have hvt : ∀ a ∈ z :: t2, validAln a := fun a ha => hv a (List.mem_cons_of_mem _ ha)
      rcases List.mem_cons.mp hx with rfl | hx2
      · have h1 : x.end_ + PADDING ≤ z.start :=
          (List.pairwise_cons.mp hg).1 z (List.mem_cons_self _ _)
        have h2 := ih hgt hvt last hl z (List.mem_cons_self _ _)
        have h3 : z.start < z.end_ := hv z (List.mem_cons_of_mem _ (List.mem_cons_self _ _))
        have hP : PADDING = 1 := rfl
        omega
      · exact ih hgt hvt last hl x hx2

/-- The `extend_stack_right` row loop preserves the packed-gap invariant of
every row. -/
theorem extendStackRightGo_inv (rows : List (List Aln)) :
    ∀ aligns, (∀ row ∈ rows, rowGap row ∧ ∀ a ∈ row, validAln a ∧ boundedAln a) →
      (∀ a ∈ aligns, validAln a ∧ boundedAln a) →
      ∀ row ∈ (extendStackRightGo rows aligns).1,
        rowGap row ∧ ∀ a ∈ row, validAln a ∧ boundedAln a := by
  induction rows with
  | nil => intro aligns _ _ row hrow; exact absurd hrow (by simp [extendStackRightGo])
  | cons row rest ih =>
    intro aligns hrows haligns
    have hrowg := hrows row (List.mem_cons_self _ _)
    have hm : ∀ x ∈ row, x.end_ + PADDING ≤
        (match row.getLast? with
          | some last => (last.end_ + PADDING) % 2 ^ 64
          | none => 0) := by
      cases hl : row.getLast? with
      | none =>
        rw [List.getLast?_eq_none_iff] at hl
        subst hl
        intro x hx
        exact absurd hx (by simp)
      | some last =>
        intro x hx
        have hxe := rowGap_last_bound row hrowg.1 (fun a ha => (hrowg.2 a ha).1) last hl x hx
        have hlb : boundedAln last := (hrowg.2 last (getLast_mem_of_eq row last hl)).2
        have hmod : (last.end_ + PADDING) % 2 ^ 64 = last.end_ + PADDING :=
          mod_u64_of_bounded last.end_ hlb
        simp only []
        rw [hmod]
        omega
    have hone := extendRowRight_inv aligns.length row aligns _ hrowg.1 hrowg.2 haligns hm
    have hsub := extendRowRight_sublist aligns.length row aligns
      (match row.getLast? with
        | some last => (last.end_ + PADDING) % 2 ^ 64
        | none => 0)
    intro r hr
    simp only [extendStackRightGo] at hr
    rcases List.mem_cons.mp hr with rfl | hr2
    · exact hone
    · exact ih _ (fun r2 hr2b => hrows r2 (List.mem_cons_of_mem _ hr2b))
        (fun a ha => haligns a (hsub.subset ha)) r hr2

/-- Left-extending one row preserves the packed-gap invariant.  The bound
hypothesis says: any valid alignment fitting under the current bound keeps
the 1bp gap to every current row entry (vacuous when the bound saturated to
0, since a valid alignment cannot end at 0). -/
theorem extendRowLeft_inv (fuel : Nat) :
    ∀ (row aligns : List Aln) (maxEnd : Nat),
      rowGap row → (∀ a ∈ row, validAln a ∧ boundedAln a) →
      (∀ a ∈ aligns, validAln a ∧ boundedAln a) →
      (∀ y, validAln y → y.end_ ≤ maxEnd → ∀ x ∈ row, y.end_ + PADDING ≤ x.start) →
      rowGap (extendRowLeft fuel row aligns maxEnd).1 ∧
        ∀ a ∈ (extendRowLeft fuel row aligns maxEnd).1, validAln a ∧ boundedAln a := by
  induction fuel with
  | zero => intro row aligns maxEnd hg hv _ _; exact ⟨hg, hv⟩
  | succ n ih =>
    intro row aligns maxEnd hg hv ha hH
    simp only [extendRowLeft]
    cases hp : pop_before aligns maxEnd with
    | none => exact ⟨hg, hv⟩
    | some p =>
      obtain ⟨a, rest⟩ := p
      obtain ⟨hend, hmemA, hsub, _⟩ := pop_before_spec aligns maxEnd a rest hp
      have hP : PADDING = 1 := rfl
      have hva := ha a hmemA
      have hg' : rowGap (a :: row) := by
        unfold rowGap at hg ⊢
        rw [List.pairwise_cons]
        exact ⟨hH a hva.1 hend, hg⟩
      have hv' : ∀ b ∈ a :: row, validAln b ∧ boundedAln b := by
        intro b hb
        rcases List.mem_cons.mp hb with rfl | h
        · exact hva
        · exact hv b h
      have hH' : ∀ y, validAln y → y.end_ ≤ a.start - PADDING →
          ∀ x ∈ a :: row, y.end_ + PADDING ≤ x.start := by
        intro y hy hyle x hx
        have hyv : y.start < y.end_ := hy
        rcases List.mem_cons.mp hx with rfl | h
        · omega
        · have h1 := hH a hva.1 hend x h
          have h2 : a.start < a.end_ := hva.1
          omega
      exact ih (a :: row) rest (a.start - PADDING) hg' hv'
        (fun b hb => ha b (hsub.subset hb)) hH'

/-- The `extend_stack_left` loop preserves the packed-gap invariant of every
row, existing or freshly created. -/
theorem extendStackLeftGo_inv (fuel : Nat) :
    ∀ (todo : List (List Aln)) (aligns : List Aln) (rs : List (List Aln)),
      (∀ row ∈ todo, rowGap row ∧ ∀ a ∈ row, validAln a ∧ boundedAln a) →
      (∀ a ∈ aligns, validAln a ∧ boundedAln a) →
      extendStackLeftGo fuel todo aligns = some rs →
      ∀ row ∈ rs, rowGap row ∧ ∀ a ∈ row, validAln a ∧ boundedAln a := by
  induction fuel with
  | zero =>
    intro todo aligns rs htodo _ h
    cases aligns with
    | nil =>
      simp only [extendStackLeftGo, Option.some.injEq] at h
      subst h
      exact htodo
    | cons a as => exact absurd h (by simp [extendStackLeftGo])
  | succ n ih =>
    intro todo aligns rs htodo haligns h
    cases aligns with
    | nil =>
      simp only [extendStackLeftGo, Option.some.injEq] at h
      subst h
      exact htodo
    | cons a as =>
      cases todo with
      | nil =>
        simp only [extendStackLeftGo] at h
        cases hrec : extendStackLeftGo n [] (extendRowLeft (a :: as).length [] (a :: as) U64MAX).2
        case none => rw [hrec] at h; exact absurd h (by simp)
        case some rs2 =>
          rw [hrec, Option.map_some'] at h
          injection h with h
          subst h
          have hone := extendRowLeft_inv (a :: as).length [] (a :: as) U64MAX
            (by unfold rowGap; exact List.Pairwise.nil) (by intro b hb; exact absurd hb (by simp))
            haligns (by intro y _ _ x hx; exact absurd hx (by simp))
          have hsub := extendRowLeft_sublist (a :: as).length [] (a :: as) U64MAX
          intro row hrow
          rcases List.mem_cons.mp hrow with rfl | h2
          · exact hone
          · exact ih [] _ rs2 (by intro r hr; exact absurd hr (by simp))
              (fun b hb => haligns b (hsub.subset hb)) hrec row h2
      | cons row rest =>
        simp only [extendStackLeftGo] at h
        cases hrec : extendStackLeftGo n rest
          (extendRowLeft (a :: as).length row (a :: as)
            ((row.headD dummyAln).start - PADDING)).2
        case none => rw [hrec] at h; exact absurd h (by simp)
        case some rs2 =>
          rw [hrec, Option.map_some'] at h
          injection h with h
          subst h
          have hrowg := htodo row (List.mem_cons_self _ _)
          have hP : PADDING = 1 := rfl
          have hH : ∀ y, validAln y → y.end_ ≤ (row.headD dummyAln).start - PADDING →
              ∀ x ∈ row, y.end_ + PADDING ≤ x.start := by
            intro y hy hyle x hx
            have hyv : y.start < y.end_ := hy
            cases row with
            | nil => exact absurd hx (by simp)
            | cons hhd t =>
              simp only [List.headD_cons] at hyle
              rcases List.mem_cons.mp hx with rfl | h2
              · omega
              · have hgap : hhd.end_ + PADDING ≤ x.start :=
                  (List.pairwise_cons.mp hrowg.1).1 x h2
                have hhv : hhd.start < hhd.end_ :=
                  (hrowg.2 hhd (List.mem_cons_self _ _)).1
                omega
          have hone := extendRowLeft_inv (a :: as).length row (a :: as)
            ((row.headD dummyAln).start - PADDING) hrowg.1 hrowg.2 haligns hH
          have hsub := extendRowLeft_sublist (a :: as).length row (a :: as)
            ((row.headD dummyAln).start - PADDING)
          intro r hr
          rcases List.mem_cons.mp hr with rfl | h2
          · exact hone
          · exact ih rest _ rs2 (fun r2 hr2 => htodo r2 (List.mem_cons_of_mem _ hr2))
              (fun b hb => haligns b (hsub.subset hb)) hrec r h2

/-! ### update invariant and the C2 claims -/

/-- Trimming preserves the packed-gap invariant (rows only lose entries), and
every surviving entry came from some original row. -/
theorem trim_inv (s : AlignmentStack) (hinv : stackRowsInv s) :
    stackRowsInv s.trim ∧ ∀ row ∈ s.trim.rows, ∀ b ∈ row, ∃ row0 ∈ s.rows, b ∈ row0 := by
  constructor
  · intro row hrow
    simp only [AlignmentStack.trim, List.mem_filter, List.mem_map] at hrow
    obtain ⟨⟨row0, hrow0, heq⟩, _⟩ := hrow
    subst heq
    have h0 := hinv row0 hrow0
    constructor
    · exact List.Pairwise.sublist (List.filter_sublist _) h0.1
    · intro a ha
      exact h0.2 a (List.mem_of_mem_filter ha)
  · intro row hrow b hb
    simp only [AlignmentStack.trim, List.mem_filter, List.mem_map] at hrow
    obtain ⟨⟨row0, hrow0, heq⟩, _⟩ := hrow
    subst heq
    exact ⟨row0, hrow0, List.mem_of_mem_filter hb⟩

/-- One `update` call preserves the packed-gap invariant, provided the batch
is valid and id-disjoint from the cached rows. -/
theorem update_preserves_inv (s s' : AlignmentStack) (v : List Aln) (region : GenomicRegion)
    (hinv : stackRowsInv s) (hgood : goodBatch v s)
    (hupd : AlignmentStack.update s v region = some s') :
    stackRowsInv s' := by
  obtain ⟨hval, hdisj⟩ := hgood
  have hinv0 : stackRowsInv (AlignmentStack.trim { s with bufferedRegion := region }) ∧ _ :=
    trim_inv { s with bufferedRegion := region } (fun row hrow => hinv row hrow)
  obtain ⟨hinv1, horig⟩ := hinv0
  have hsorted : (sortByStart v).Pairwise startLe := List.sorted_insertionSort startLe v
  have hmemv : ∀ a ∈ sortByStart v, a ∈ v :=
    fun a ha => (List.perm_insertionSort startLe v).mem_iff.mp ha
  have hdisj1 : ∀ a ∈ sortByStart v,
      ∀ row ∈ (AlignmentStack.trim { s with bufferedRegion := region }).rows,
        ∀ b ∈ row, a.id ≠ b.id := by
    intro a ha row hrow b hb
    obtain ⟨row0, hrow0, hb0⟩ := horig row hrow b hb
    exact hdisj a (hmemv a ha) row0 hrow0 b hb0
  have hrd := replace_duplicates_disjoint _ (sortByStart v) hsorted hdisj1
  simp only [AlignmentStack.update] at hupd
  rw [hrd, Option.some_bind] at hupd
  simp only [AlignmentStack.extend_stack] at hupd
  rw [Option.map_eq_some'] at hupd
  obtain ⟨rs, hrs, heq⟩ := hupd
  have hvalign : ∀ a ∈ sortByStart v, validAln a ∧ boundedAln a :=
    fun a ha => hval a (hmemv a ha)
  have hrightinv := extendStackRightGo_inv
    (AlignmentStack.trim { s with bufferedRegion := region }).rows (sortByStart v)
    hinv1 hvalign
  have hsub := extendStackRightGo_sublist
    (AlignmentStack.trim { s with bufferedRegion := region }).rows (sortByStart v)
  have hendvalid : ∀ a ∈ sortByEnd (extendStackRightGo
      (AlignmentStack.trim { s with bufferedRegion := region }).rows (sortByStart v)).2,
      validAln a ∧ boundedAln a := by
    intro a ha
    exact hvalign a (hsub.subset ((List.perm_insertionSort endLe _).mem_iff.mp ha))
  have hleft := extendStackLeftGo_inv _ _ _ rs hrightinv hendvalid hrs
  intro row hrow
  rw [← heq] at hrow
  exact hleft row hrow

/-- Every stack reachable with valid, id-disjoint batches satisfies the rows
invariant. -/
theorem reachable_stack_inv (s : AlignmentStack) (h : ReachableStack goodBatch s) :
    stackRowsInv s := by
  induction h with
  | new region => intro row hrow; exact absurd hrow (by simp [AlignmentStack.new])
  | update s s' v region hreach hgood hupd ih =>
      exact update_preserves_inv s s' v region ih hgood hupd
  | clear s region hreach ih => intro row hrow; exact absurd hrow (by simp [AlignmentStack.clear])

/-- C2 (amended): for every stack reachable from a new stack by `update` and
`clear` calls in which every incoming alignment has a nonempty interval whose
padded end fits in u64 (start < end and end + PADDING <= u64::MAX, so the
source's `end() + PADDING` cannot wrap) and an id distinct from every id
already in the stack, consecutive alignments in every row satisfy
`left.end + 1 <= right.start` (the 1bp padded gap).  The claim as stated
(arbitrary batches) is refuted by `C2_counterexample`; at `end = u64::MAX`
the wrapped bound also defeats the gap, which the hypothesis excludes. -/
theorem C2_stack_rows_gap (s : AlignmentStack) (h : ReachableStack goodBatch s) :
    ∀ row ∈ s.rows, row.Pairwise (fun a b => a.end_ + 1 ≤ b.start) := by
  intro row hrow
  exact (reachable_stack_inv s h row hrow).1

/-- C2 counterexample: with arbitrary batches the invariant fails.  A single
`update` of a fresh stack with the zero-length alignment a = [0,0) and
b = [0,5) packs both into one row as [a, b]: during left-extension the bound
`first.start().saturating_sub(PADDING)` saturates to 0, and a (end 0) is
prepended before b (start 0), violating `a.end + 1 <= b.start`. -/
theorem C2_counterexample :
    ¬ (∀ s : AlignmentStack, ReachableStack (fun _ _ => True) s →
        ∀ row ∈ s.rows, row.Pairwise (fun a b => a.end_ + 1 ≤ b.start)) := by
  intro h
  have hupd : AlignmentStack.update (AlignmentStack.new ⟨"X", ⟨0, 1000⟩⟩)
      [⟨[97], 0, 0⟩, ⟨[98], 0, 5⟩] ⟨"X", ⟨0, 25⟩⟩ =
      some ⟨[[⟨[97], 0, 0⟩, ⟨[98], 0, 5⟩]], ⟨"X", ⟨0, 25⟩⟩⟩ := by decide
  have hreach := @ReachableStack.update (fun _ _ => True) _ _ _ _
    (ReachableStack.new ⟨"X", ⟨0, 1000⟩⟩) trivial hupd
  have hpair := h _ hreach [⟨[97], 0, 0⟩, ⟨[98], 0, 5⟩] (by simp)
  rw [List.pairwise_cons] at hpair
  have := hpair.1 ⟨[98], 0, 5⟩ (by simp)
  exact absurd this (by decide)

/-- C2 witness: the amended theorem applied to the stack reached by one
well-behaved update (alignments [1,5) and [10,20) with distinct ids). -/
theorem C2_stack_rows_gap_witness :
    ([⟨[97], 1, 5⟩, ⟨[98], 10, 20⟩] : List Aln).Pairwise
      (fun a b => a.end_ + 1 ≤ b.start) := by
  have hupd : AlignmentStack.update (AlignmentStack.new ⟨"X", ⟨0, 1000⟩⟩)
      [⟨[97], 1, 5⟩, ⟨[98], 10, 20⟩] ⟨"X", ⟨0, 25⟩⟩ =
      some ⟨[[⟨[97], 1, 5⟩, ⟨[98], 10, 20⟩]], ⟨"X", ⟨0, 25⟩⟩⟩ := by decide
  have hgood : goodBatch [⟨[97], 1, 5⟩, ⟨[98], 10, 20⟩]
      (AlignmentStack.new ⟨"X", ⟨0, 1000⟩⟩) := by
    constructor
    · decide
    · intro a _ row hrow
      exact absurd hrow (by simp [AlignmentStack.new])
  exact C2_stack_rows_gap _ (ReachableStack.update _ _ _ _
    (ReachableStack.new ⟨"X", ⟨0, 1000⟩⟩) hgood hupd)
    [⟨[97], 1, 5⟩, ⟨[98], 10, 20⟩] (by simp)

/-! ### C10: update never fails -/

/-- A successful push appends the value. -/
theorem pushStartSorted_eq_append (l : List Aln) (v : Aln) (u : List Aln)
    (h : pushStartSorted l v = some u) : u = l ++ [v] := by
  unfold pushStartSorted at h
  split at h
  · split at h
    · exact absurd h (by simp)
    · injection h with h; exact h.symm
  · injection h with h; exact h.symm

/-- Every alignment in the walk's output `updated` list came from the input
`updated` prefix or from the incoming list. -/
theorem rdGo_updated_subset (incoming : List Aln) :
    ∀ (slots : List Slot) (stackIdx : Nat) (updated : List Aln)
      (slots2 : List Slot) (updated2 : List Aln),
      rdGo slots stackIdx updated incoming = some (slots2, updated2) →
      ∀ a ∈ updated2, a ∈ updated ∨ a ∈ incoming := by
  induction incoming with
  | nil =>
    intro slots stackIdx updated slots2 updated2 h a ha
    simp only [rdGo, Option.some.injEq, Prod.mk.injEq] at h
    obtain ⟨_, h2⟩ := h
    subst h2
    exact Or.inl ha
  | cons b rest ih =>
    intro slots stackIdx updated slots2 updated2 h a ha
    simp only [rdGo] at h
    split at h
    · rcases ih _ _ _ _ _ h a ha with h2 | h2
      · exact Or.inl h2
      · exact Or.inr (List.mem_cons_of_mem _ h2)
    · split at h
      · rename_i u2 hpush
        have hu2 := pushStartSorted_eq_append updated b u2 hpush
        subst hu2
        rcases ih _ _ _ _ _ h a ha with h2 | h2
        · rcases List.mem_append.mp h2 with h3 | h3
          · exact Or.inl h3
          · rw [List.mem_singleton] at h3
            subst h3
            exact Or.inr (List.mem_cons_self _ _)
        · exact Or.inr (List.mem_cons_of_mem _ h2)
      · exact absurd h (by simp)

/-- With u64 data the left-extension loop always terminates within its fuel:
every fresh-row iteration pops at least one alignment. -/
theorem extendStackLeftGo_isSome (fuel : Nat) :
    ∀ (todo : List (List Aln)) (aligns : List Aln),
      (∀ a ∈ aligns, a.end_ ≤ U64MAX) →
      todo.length + aligns.length + 1 ≤ fuel →
      (extendStackLeftGo fuel todo aligns).isSome := by
  induction fuel with
  | zero => intro todo aligns _ hb; omega
  | succ n ih =>
    intro todo aligns hends hb
    cases aligns with
    | nil => cases todo <;> simp [extendStackLeftGo]
    | cons a as =>
      cases todo with
      | nil =>
        simp only [extendStackLeftGo]
        have hpop : (pop_before (a :: as) U64MAX).isSome :=
          pop_before_isSome _ _ (by simp)
            (by simp only [List.headD_cons]; exact hends a (List.mem_cons_self _ _))
        have hlen : (extendRowLeft (a :: as).length [] (a :: as) U64MAX).2.length + 1 ≤
            (a :: as).length := by
          simp only [List.length_cons, extendRowLeft]
          cases hp : pop_before (a :: as) U64MAX with
          | none => rw [hp] at hpop; exact absurd hpop (by simp)
          | some p =>
            obtain ⟨b, rest⟩ := p
            obtain ⟨_, _, _, hlen2⟩ := pop_before_spec _ _ _ _ hp
            have hle := (extendRowLeft_sublist as.length [b] rest (b.start - PADDING)).length_le
            simp only [List.length_cons] at hlen2
            show (extendRowLeft as.length [b] rest (b.start - PADDING)).2.length + 1 ≤
              as.length + 1
            omega
        have hmem2 : ∀ b ∈ (extendRowLeft (a :: as).length [] (a :: as) U64MAX).2,
            b.end_ ≤ U64MAX :=
          fun b hb => hends b ((extendRowLeft_sublist _ _ _ _).subset hb)
        have hrec := ih [] _ hmem2 (by
          simp only [List.length_nil, List.length_cons] at hb hlen ⊢
          omega)
        obtain ⟨rs, hrs⟩ := Option.isSome_iff_exists.mp hrec
        rw [hrs]
        simp
      | cons row rest =>
        simp only [extendStackLeftGo]
        have hle := (extendRowLeft_sublist (a :: as).length row (a :: as)
          ((row.headD dummyAln).start - PADDING)).length_le
        have hmem2 : ∀ b ∈ (extendRowLeft (a :: as).length row (a :: as)
            ((row.headD dummyAln).start - PADDING)).2, b.end_ ≤ U64MAX :=
          fun b hb => hends b ((extendRowLeft_sublist _ _ _ _).subset hb)
        have hrec := ih rest _ hmem2 (by
          simp only [List.length_cons] at hb hle ⊢
          omega)
        obtain ⟨rs, hrs⟩ := Option.isSome_iff_exists.mp hrec
        rw [hrs]
        simp

/-- `extend_stack` succeeds on any u64-ranged alignment list. -/
theorem extend_stack_isSome (s2 : AlignmentStack) (novel : List Aln)
    (hu : ∀ a ∈ novel, a.end_ ≤ U64MAX) : (s2.extend_stack novel).isSome := by
  simp only [AlignmentStack.extend_stack]
  have hsub := extendStackRightGo_sublist s2.rows novel
  have hends : ∀ a ∈ sortByEnd (extendStackRightGo s2.rows novel).2, a.end_ ≤ U64MAX := by
    intro a ha
    exact hu a (hsub.subset ((List.perm_insertionSort endLe _).mem_iff.mp ha))
  have hlsome := extendStackLeftGo_isSome
    ((extendStackRightGo s2.rows novel).1.length +
      (sortByEnd (extendStackRightGo s2.rows novel).2).length + 1)
    (extendStackRightGo s2.rows novel).1
    (sortByEnd (extendStackRightGo s2.rows novel).2) hends (le_refl _)
  obtain ⟨rs, hrs⟩ := Option.isSome_iff_exists.mp hlsome
  rw [hrs]
  simp

/-- C10: `AlignmentStack::update` returns Ok for every stack state, input
vector and region: the incoming list is `(start, id)`-sorted by the `From`
conversion, the pushes inside `replace_duplicates` are a subsequence of that
sorted list and so always succeed, and the extension loops terminate.  The
hypothesis just records that u64 end coordinates fit in 64 bits (a type
invariant in Rust, made explicit since the model uses unbounded naturals). -/
theorem C10_update_always_ok (s : AlignmentStack) (v : List Aln) (region : GenomicRegion)
    (hu64 : ∀ a ∈ v, a.end_ ≤ U64MAX) :
    (AlignmentStack.update s v region).isSome := by
  have hsorted : (sortByStart v).Pairwise startLe := List.sorted_insertionSort startLe v
  simp only [AlignmentStack.update, AlignmentStack.replace_duplicates]
  have hrdsome := rdGo_isSome (sortByStart v)
    ((slotsOf (AlignmentStack.trim { s with bufferedRegion := region }).rows).insertionSort slotLe)
    0 [] hsorted (by intro u hu; exact absurd hu (by simp))
  cases hrd : rdGo
      ((slotsOf (AlignmentStack.trim { s with bufferedRegion := region }).rows).insertionSort slotLe)
      0 [] (sortByStart v) with
  | none => rw [hrd] at hrdsome; exact absurd hrdsome (by simp)
  | some r =>
    obtain ⟨slots2, updated2⟩ := r
    rw [Option.map_some', Option.some_bind]
    apply extend_stack_isSome
    intro a ha
    rcases rdGo_updated_subset (sortByStart v) _ 0 [] _ _ hrd a ha with h | h
    · exact absurd h (by simp)
    · exact hu64 a ((List.perm_insertionSort startLe v).mem_iff.mp h)

/-- C10 witness: a concrete update (the repo's own fresh-stack test data)
returns Ok. -/
theorem C10_update_always_ok_witness :
    (AlignmentStack.update (AlignmentStack.new ⟨"X", ⟨0, 1000⟩⟩) exAlns
      ⟨"X", ⟨0, 25⟩⟩).isSome = true :=
  C10_update_always_ok (AlignmentStack.new ⟨"X", ⟨0, 1000⟩⟩) exAlns ⟨"X", ⟨0, 25⟩⟩ (by decide)

/-! ### C7: duplicate reconciliation frame -/

/-- A member of a slot list sits at some `getD` index. -/
theorem slot_mem_getD (slots : List Slot) (z : Slot) (h : z ∈ slots) :
    ∃ k, k < slots.length ∧ slots.getD k dummySlot = z := by
  obtain ⟨n, hn, he⟩ := List.mem_iff_getElem.mp h
  refine ⟨n, hn, ?_⟩
  rw [List.getD_eq_getElem?_getD, List.getElem?_eq_getElem hn, he]
  rfl

/-- The reconciliation walk never moves a slot, never changes a slot's
coordinate or id, and only ever overwrites a slot with an incoming
alignment of the same id. -/
theorem rdGo_slots_frame (incoming : List Aln) :
    ∀ (slots : List Slot) (stackIdx : Nat) (updated : List Aln)
      (slots2 : List Slot) (updated2 : List Aln),
      rdGo slots stackIdx updated incoming = some (slots2, updated2) →
      slots2.length = slots.length ∧
        ∀ k, (slots2.getD k dummySlot).1 = (slots.getD k dummySlot).1 ∧
          (slots2.getD k dummySlot).2.id = (slots.getD k dummySlot).2.id ∧
          (slots2.getD k dummySlot = slots.getD k dummySlot ∨
            (slots2.getD k dummySlot).2 ∈ incoming) := by
  induction incoming with
  | nil =>
    intro slots stackIdx updated slots2 updated2 h
    simp only [rdGo, Option.some.injEq, Prod.mk.injEq] at h
    obtain ⟨h1, _⟩ := h
    subst h1
    exact ⟨rfl, fun k => ⟨rfl, rfl, Or.inl rfl⟩⟩
  | cons b rest ih =>
    intro slots stackIdx updated slots2 updated2 h
    simp only [rdGo] at h
    split at h
    · rename_i hc
      obtain ⟨hlen, hslots⟩ := ih _ _ _ _ _ h
      constructor
      · rw [hlen, List.length_set]
      · intro k
        obtain ⟨f1, f2, f3⟩ := hslots k
        by_cases hk : k = rdAdvance slots b.start slots.length stackIdx
        · have hset : (slots.set (rdAdvance slots b.start slots.length stackIdx)
              ((slots.getD (rdAdvance slots b.start slots.length stackIdx) dummySlot).1, b)).getD
                k dummySlot =
              ((slots.getD (rdAdvance slots b.start slots.length stackIdx) dummySlot).1, b) := by
            rw [hk, List.getD_eq_getElem?_getD, List.getElem?_set_self hc.1]
            rfl
          refine ⟨by rw [f1, hset, hk], by rw [f2, hset, hk]; exact hc.2, ?_⟩
          rcases f3 with h3 | h3
          · right
            rw [h3, hset]
            exact List.mem_cons_self _ _
          · exact Or.inr (List.mem_cons_of_mem _ h3)
        · have hset : (slots.set (rdAdvance slots b.start slots.length stackIdx)
              ((slots.getD (rdAdvance slots b.start slots.length stackIdx) dummySlot).1, b)).getD
                k dummySlot = slots.getD k dummySlot := by
            rw [List.getD_eq_getElem?_getD,
              List.getElem?_set_ne (fun he => hk he.symm), ← List.getD_eq_getElem?_getD]
          refine ⟨by rw [f1, hset], by rw [f2, hset], ?_⟩
          rcases f3 with h3 | h3
          · exact Or.inl (by rw [h3, hset])
          · exact Or.inr (List.mem_cons_of_mem _ h3)
    · split at h
      · rename_i u2 hpush
        obtain ⟨hlen, hslots⟩ := ih _ _ _ _ _ h
        refine ⟨hlen, fun k => ⟨(hslots k).1, (hslots k).2.1, ?_⟩⟩
        rcases (hslots k).2.2 with h3 | h3
        · exact Or.inl h3
        · exact Or.inr (List.mem_cons_of_mem _ h3)
      · exact absurd h (by simp)

/-- Shape and entry characterisation of the slot write-back: lengths are
unchanged and each entry is either untouched or the slot value registered at
its coordinate. -/
theorem applySlots_entry (rows : List (List Aln)) (slots : List Slot) (i j : Nat) :
    (applySlots rows slots).length = rows.length ∧
    ((applySlots rows slots).getD i []).length = (rows.getD i []).length ∧
    (((applySlots rows slots).getD i []).getD j dummyAln = (rows.getD i []).getD j dummyAln ∨
      ∃ z ∈ slots, z.1 = (i, j) ∧
        ((applySlots rows slots).getD i []).getD j dummyAln = z.2) := by
  have hlen : (applySlots rows slots).length = rows.length := by
    simp [applySlots]
  refine ⟨hlen, ?_, ?_⟩
  · by_cases hi : i < rows.length
    · have hrow : (applySlots rows slots).getD i [] =
          rows[i].mapIdx (fun ci a =>
            match slots.find? (fun s => s.1 == (i, ci)) with
            | some s => s.2
            | none => a) := by
        rw [List.getD_eq_getElem?_getD,
          List.getElem?_eq_getElem (show i < (applySlots rows slots).length by omega)]
        simp [applySlots]
      rw [hrow]
      rw [List.getD_eq_getElem?_getD rows, List.getElem?_eq_getElem hi]
      simp
    · rw [List.getD_eq_getElem?_getD, List.getD_eq_getElem?_getD,
        List.getElem?_eq_none_iff.mpr (by omega),
        List.getElem?_eq_none_iff.mpr (by omega)]
  · by_cases hi : i < rows.length
    · have hrow : (applySlots rows slots).getD i [] =
          rows[i].mapIdx (fun ci a =>
            match slots.find? (fun s => s.1 == (i, ci)) with
            | some s => s.2
            | none => a) := by
        rw [List.getD_eq_getElem?_getD,
          List.getElem?_eq_getElem (show i < (applySlots rows slots).length by omega)]
        simp [applySlots]
      have horig : rows.getD i [] = rows[i] := by
        rw [List.getD_eq_getElem?_getD, List.getElem?_eq_getElem hi]
        rfl
      by_cases hj : j < rows[i].length
      · have hentry : ((applySlots rows slots).getD i []).getD j dummyAln =
            match slots.find? (fun s => s.1 == (i, j)) with
            | some s => s.2
            | none => rows[i][j] := by
          rw [hrow, List.getD_eq_getElem?_getD,
            List.getElem?_eq_getElem (show j < (rows[i].mapIdx _).length by
              rw [List.length_mapIdx]; exact hj)]
          simp
        cases hf : slots.find? (fun s => s.1 == (i, j)) with
        | none =>
          left
          rw [hentry, hf, horig, List.getD_eq_getElem?_getD, List.getElem?_eq_getElem hj]
          rfl
        | some z =>
          right
          refine ⟨z, List.mem_of_find?_eq_some hf, ?_, ?_⟩
          · have := List.find?_some hf
            simpa using this
          · rw [hentry, hf]
      · left
        rw [hrow, horig]
        rw [List.getD_eq_getElem?_getD ((rows[i]).mapIdx _),
          List.getElem?_eq_none_iff.mpr (by rw [List.length_mapIdx]; omega),
          List.getD_eq_getElem?_getD rows[i], List.getElem?_eq_none_iff.mpr (by omega)]
    · left
      have h1 : (applySlots rows slots).getD i [] = [] := by
        rw [List.getD_eq_getElem?_getD, List.getElem?_eq_none_iff.mpr (by omega)]
        rfl
      have h2 : rows.getD i [] = [] := by
        rw [List.getD_eq_getElem?_getD, List.getElem?_eq_none_iff.mpr (by omega)]
        rfl
      rw [h1, h2]

/-- C7 (amended): the reconciliation step never changes the row count, any
row's length, or any entry's id or position; each entry is either untouched
or overwritten in place by an incoming alignment with the same id.  An
incoming alignment whose id matches a cached alignment is replaced in place
only when the lock-step walk lands on that cached entry; otherwise it passes
through as novel (see the counterexample). -/
theorem C7_replace_duplicates_frame (s : AlignmentStack) (alignments : List Aln)
    (s2 : AlignmentStack) (novel : List Aln)
    (h : s.replace_duplicates alignments = some (s2, novel)) :
    s2.bufferedRegion = s.bufferedRegion ∧
    s2.rows.length = s.rows.length ∧
    (∀ i, (s2.rows.getD i []).length = (s.rows.getD i []).length) ∧
    (∀ i j, ((s2.rows.getD i []).getD j dummyAln).id =
      ((s.rows.getD i []).getD j dummyAln).id) ∧
    (∀ i j, (s2.rows.getD i []).getD j dummyAln = (s.rows.getD i []).getD j dummyAln ∨
      (s2.rows.getD i []).getD j dummyAln ∈ alignments) := by
  simp only [AlignmentStack.replace_duplicates] at h
  rw [Option.map_eq_some'] at h
  obtain ⟨⟨slots2, updated2⟩, hrd, heq⟩ := h
  have hs2 : s2 = { s with rows := applySlots s.rows slots2 } :=
    (congrArg Prod.fst heq).symm
  have hrows2 : s2.rows = applySlots s.rows slots2 := by rw [hs2]
  have hbuf : s2.bufferedRegion = s.bufferedRegion := by rw [hs2]
  obtain ⟨hflen, hframe⟩ := rdGo_slots_frame alignments _ 0 [] slots2 updated2 hrd
  have hkey : ∀ z ∈ slots2, ∀ i j, z.1 = (i, j) →
      z.2.id = ((s.rows.getD i []).getD j dummyAln).id ∧
        (z.2 = (s.rows.getD i []).getD j dummyAln ∨ z.2 ∈ alignments) := by
    intro z hz i j hcoord
    obtain ⟨k, hk, hkz⟩ := slot_mem_getD slots2 z hz
    obtain ⟨g1, g2, g3⟩ := hframe k
    have hk0 : k < ((slotsOf s.rows).insertionSort slotLe).length := by omega
    have hmem0 : ((slotsOf s.rows).insertionSort slotLe).getD k dummySlot ∈
        (slotsOf s.rows).insertionSort slotLe := by
      rw [List.getD_eq_getElem?_getD, List.getElem?_eq_getElem hk0]
      exact List.getElem_mem hk0
    have hmemOf : ((slotsOf s.rows).insertionSort slotLe).getD k dummySlot ∈ slotsOf s.rows :=
      (List.perm_insertionSort slotLe (slotsOf s.rows)).mem_iff.mp hmem0
    have hc0 : (((slotsOf s.rows).insertionSort slotLe).getD k dummySlot).1 = (i, j) := by
      rw [← g1, hkz, hcoord]
    have hpair : ((i, j), (((slotsOf s.rows).insertionSort slotLe).getD k dummySlot).2) =
        ((slotsOf s.rows).insertionSort slotLe).getD k dummySlot := by
      rw [← hc0]
    have hval := slotsOf_mem_value s.rows i j
      (((slotsOf s.rows).insertionSort slotLe).getD k dummySlot).2 (by rw [hpair]; exact hmemOf)
    constructor
    · rw [← hkz, g2, hval.2.2]
    · rcases g3 with h3 | h3
      · left
        rw [← hkz, h3, hval.2.2]
      · right
        rw [← hkz]
        exact h3
  refine ⟨hbuf, ?_, ?_, ?_, ?_⟩
  · rw [hrows2]
    exact (applySlots_entry s.rows slots2 0 0).1
  · intro i
    rw [hrows2]
    exact (applySlots_entry s.rows slots2 i 0).2.1
  · intro i j
    rw [hrows2]
    rcases (applySlots_entry s.rows slots2 i j).2.2 with he | ⟨z, hz, hcoord, hze⟩
    · rw [he]
    · rw [hze]
      exact (hkey z hz i j hcoord).1
  · intro i j
    rw [hrows2]
    rcases (applySlots_entry s.rows slots2 i j).2.2 with he | ⟨z, hz, hcoord, hze⟩
    · exact Or.inl (by rw [he])
    · rcases (hkey z hz i j hcoord).2 with h2 | h2
      · exact Or.inl (by rw [hze, h2])
      · exact Or.inr (by rw [hze]; exact h2)

/-- C7 counterexample: the claim says every incoming alignment whose id
matches a cached alignment is replaced in place rather than treated as new.
With cache rows [[id b: 0-10], [id c: 0-12]] (flattened sort order (0,b),
(0,c)) and incoming [id c: 0-13], the walk compares the incoming c only
against the slot holding b (the first slot with start >= 0) and, finding the
ids different, emits c as novel even though id c is cached. -/
theorem C7_counterexample :
    ¬ (∀ (s : AlignmentStack) (alignments : List Aln) (s2 : AlignmentStack) (novel : List Aln),
        alignments.Pairwise startLe →
        s.replace_duplicates alignments = some (s2, novel) →
        ∀ a ∈ novel, ∀ row ∈ s.rows, ∀ b ∈ row, a.id ≠ b.id) := by
  intro h
  have hc := h ⟨[[⟨[98], 0, 10⟩], [⟨[99], 0, 12⟩]], ⟨"X", ⟨0, 25⟩⟩⟩ [⟨[99], 0, 13⟩]
    ⟨[[⟨[98], 0, 10⟩], [⟨[99], 0, 12⟩]], ⟨"X", ⟨0, 25⟩⟩⟩ [⟨[99], 0, 13⟩]
    (by decide) (by decide)
    ⟨[99], 0, 13⟩ (by decide) [⟨[99], 0, 12⟩] (by decide) ⟨[99], 0, 12⟩ (by decide)
  exact hc rfl

/-- C7 witness: the frame theorem at the spec's own example (cache holds
id 2 at interval 2-12 in row 0; update arrives with id 2 at interval 0-12):
the hypothesis evaluates concretely, the replacement happened in place. -/
theorem C7_replace_duplicates_frame_witness :
    (⟨[[⟨[50], 0, 12⟩]], ⟨"X", ⟨0, 25⟩⟩⟩ : AlignmentStack).bufferedRegion =
      (⟨[[⟨[50], 2, 12⟩]], ⟨"X", ⟨0, 25⟩⟩⟩ : AlignmentStack).bufferedRegion ∧
    (⟨[[⟨[50], 0, 12⟩]], ⟨"X", ⟨0, 25⟩⟩⟩ : AlignmentStack).rows.length =
      (⟨[[⟨[50], 2, 12⟩]], ⟨"X", ⟨0, 25⟩⟩⟩ : AlignmentStack).rows.length ∧
    (∀ i, (((⟨[[⟨[50], 0, 12⟩]], ⟨"X", ⟨0, 25⟩⟩⟩ : AlignmentStack).rows.getD i []).length =
      (((⟨[[⟨[50], 2, 12⟩]], ⟨"X", ⟨0, 25⟩⟩⟩ : AlignmentStack).rows.getD i []).length))) ∧
    (∀ i j, ((((⟨[[⟨[50], 0, 12⟩]], ⟨"X", ⟨0, 25⟩⟩⟩ : AlignmentStack).rows.getD i []).getD j
        dummyAln).id =
      (((⟨[[⟨[50], 2, 12⟩]], ⟨"X", ⟨0, 25⟩⟩⟩ : AlignmentStack).rows.getD i []).getD j
        dummyAln).id)) ∧
    (∀ i j, ((⟨[[⟨[50], 0, 12⟩]], ⟨"X", ⟨0, 25⟩⟩⟩ : AlignmentStack).rows.getD i []).getD j
        dummyAln =
      (((⟨[[⟨[50], 2, 12⟩]], ⟨"X", ⟨0, 25⟩⟩⟩ : AlignmentStack).rows.getD i []).getD j
        dummyAln) ∨
      ((⟨[[⟨[50], 0, 12⟩]], ⟨"X", ⟨0, 25⟩⟩⟩ : AlignmentStack).rows.getD i []).getD j
        dummyAln ∈ [(⟨[50], 0, 12⟩ : Aln)]) :=
  C7_replace_duplicates_frame ⟨[[⟨[50], 2, 12⟩]], ⟨"X", ⟨0, 25⟩⟩⟩ [⟨[50], 0, 12⟩]
    ⟨[[⟨[50], 0, 12⟩]], ⟨"X", ⟨0, 25⟩⟩⟩ [] (by decide)

theorem PairedReads.new_eq (read1 : AlignedRead) (read2 : Option AlignedRead)
    (pr : PairedReads) (h : PairedReads.new read1 read2 = some pr) :
    pr.id = read1.qname ∧ pr.read1 = read1 ∧ pr.read2 = read2 := by
  cases read2 with
  | some r2 =>
    simp only [PairedReads.new] at h
    rw [Option.map_eq_some'] at h
    obtain ⟨itv, _, heq⟩ := h
    rw [← heq]
    exact ⟨rfl, rfl, rfl⟩
  | none =>
    simp only [PairedReads.new] at h
    cases hm : read1.matePos with
    | none =>
      rw [hm] at h
      exact absurd h (by simp)
    | some matePos =>
      rw [hm] at h
      rw [Option.map_eq_some'] at h
      obtain ⟨itv, _, heq⟩ := h
      rw [← heq]
      exact ⟨rfl, rfl, rfl⟩

theorem pairGroup_paired (read1 : AlignedRead) (rest : List AlignedRead)
    (pr : PairedReads)
    (h : pairGroup read1 rest = some (AlignedPair.pairedReadsKind pr)) :
    pr.id = read1.qname ∧ pr.read1 = read1 ∧ pr.read2 = rest.head? := by
  simp only [pairGroup] at h
  split at h
  · split at h
    · rw [Option.map_eq_some'] at h
      obtain ⟨pr2, hnew, heq⟩ := h
      injection heq with h2
      subst h2
      exact PairedReads.new_eq _ _ _ hnew
    · exact absurd h (by simp)
  · exact absurd h (by simp)

theorem pairLoop_paired (reads : List AlignedRead) :
    ∀ ks pairs, pairLoop reads ks = some pairs →
    ∀ pr, AlignedPair.pairedReadsKind pr ∈ pairs →
    pr.id = pr.read1.qname ∧
    ∃ rest, reads.filter (fun r => r.qname == pr.read1.qname) = pr.read1 :: rest ∧
      pr.read2 = rest.head? := by
  intro ks
  induction ks with
  | nil =>
    intro pairs h pr hpr
    simp only [pairLoop] at h
    injection h with h
    subst h
    exact absurd hpr (by simp)
  | cons k ks ih =>
    intro pairs h pr hpr
    simp only [pairLoop] at h
    split at h
    · exact absurd h (by simp)
    next read1 rest hf =>
      split at h
      next p ps hg hl =>
        injection h with h
        subst h
        rcases List.mem_cons.mp hpr with hp | hp
        · rw [← hp] at hg
          obtain ⟨hid, hr1, hr2⟩ := pairGroup_paired read1 rest pr hg
          have hq : read1.qname = k := by
            have hmem : read1 ∈ reads.filter (fun r => r.qname == k) := by
              rw [hf]
              exact List.mem_cons_self _ _
            exact eq_of_beq (List.mem_filter.mp hmem).2
          subst hr1
          refine ⟨hid, rest, ?_, hr2⟩
          rw [hq]
          exact hf
        · exact ih ps hl pr hp
      all_goals exact absurd h (by simp)

/-- C8 (amended): in every `PairedReads` emitted by `pair_reads`, `read1` is
the FIRST read of its qname group in input order (and `read2` the second, if
any), not the read flagged first-in-template; the pair's id is `read1`'s
qname. -/
theorem C8_pair_reads_read1_input_order (reads : List AlignedRead)
    (pairs : List AlignedPair) (pr : PairedReads)
    (h : pair_reads reads = some pairs)
    (hpr : AlignedPair.pairedReadsKind pr ∈ pairs) :
    pr.id = pr.read1.qname ∧
    ∃ rest, reads.filter (fun r => r.qname == pr.read1.qname) = pr.read1 :: rest ∧
      pr.read2 = rest.head? :=
  pairLoop_paired reads _ pairs h pr hpr

/-- C8 counterexample: the claim says the read flagged first-in-template (id
= qname ++ "/1") becomes `read1` regardless of input order.  Feeding the two
same-contig mates of template "A" with the second-in-template read first
(`[exReadB, exReadA]`) yields a `PairedReads` whose `read1` is `exReadB`,
whose id ends in "/2": `pair_reads` takes `read1 = pop_front`, i.e. input
order, never consulting the template flag. -/
theorem C8_counterexample :
    ¬ (∀ (reads : List AlignedRead) (pairs : List AlignedPair)
        (pr : PairedReads),
        pair_reads reads = some pairs →
        AlignedPair.pairedReadsKind pr ∈ pairs →
        (reads.filter (fun r => r.qname == pr.id)).length = 2 →
        (∀ r ∈ reads.filter (fun r => r.qname == pr.id),
          r.matePos.map GenomicRegion.seqName = some r.region.seqName) →
        pr.read1.id = pr.read1.qname ++ [47, 49]) := by
  intro h
  have hc := h [exReadB, exReadA] [AlignedPair.pairedReadsKind exPair] exPair
    (by decide) (by decide) (by decide) (by decide)
  exact absurd hc (by decide)

/-- C8 witness: on the concrete input `[exReadB, exReadA]` the theorem's
hypotheses evaluate and its conclusion identifies `read1` with the first read
of the group in input order. -/
theorem C8_pair_reads_read1_input_order_witness :
    exPair.id = exPair.read1.qname ∧
    ∃ rest,
      ([exReadB, exReadA] : List AlignedRead).filter
        (fun r => r.qname == exPair.read1.qname) = exPair.read1 :: rest ∧
      exPair.read2 = rest.head? :=
  C8_pair_reads_read1_input_order [exReadB, exReadA]
    [AlignedPair.pairedReadsKind exPair] exPair (by decide) (by decide)

/-- C5: soft-clip runs are NOT emitted whole.  For the record with CIGAR
"2S2M", read "TTGC", at position 1003 against the test view, the two
consecutive clipped bases (both inside the view) produce a single `SoftClip`
diff whose sequence is only the FIRST clipped base "T" (byte 84) and whose
interval (1003, 1004) spans one base: the `len - 1` continuation bases of a
soft clip go through the insertion path of the pair iterator with reference
position `none`, so `collapse_diff` stops collecting after the first base and
the run advances the reference offset by 1, not by `n`. -/
theorem C5_softclip_code_bug :
    iter_sequence_diffs ⟨1003, [Cigar.SoftClip 2, Cigar.Match 2], [84, 84, 71, 67]⟩
      testView = some [SequenceDiff.SoftClip ⟨1003, 1004⟩ [84]] := by
  decide

theorem GenomicInterval.new_succ (p : Nat) :
    GenomicInterval.new p (p + 1) = some ⟨p, p + 1⟩ := by
  rw [GenomicInterval.new, if_neg (by omega)]

theorem same_enum_variant_match_left (l : Nat) (op : Cigar)
    (h : same_enum_variant (Cigar.Match l) op = true) :
    ∃ l2, op = Cigar.Match l2 := by
  cases op <;> simp [same_enum_variant] at h ⊢

theorem same_enum_variant_diff_left (l : Nat) (op : Cigar)
    (h : same_enum_variant (Cigar.Diff l) op = true) :
    ∃ l2, op = Cigar.Diff l2 := by
  cases op <;> simp [same_enum_variant] at h ⊢

theorem mismatchSpec_none_of_not_mx (refseq : SequenceView) (readSeq : List Nat)
    (q : APair) (h1 : ∀ l, q.1 ≠ Cigar.Match l) (h2 : ∀ l, q.1 ≠ Cigar.Diff l) :
    mismatchSpec refseq readSeq q = none := by
  obtain ⟨op, rd, rf⟩ := q
  cases op with
  | Match l => exact absurd rfl (h1 l)
  | Diff l => exact absurd rfl (h2 l)
  | _ => cases rd <;> cases rf <;> rfl

theorem mismatchSpec_none_of_not_contains (refseq : SequenceView)
    (readSeq : List Nat) (p : APair) (refPos : Nat)
    (href : p.2.2 = some refPos) (hc : refseq.contains refPos = false) :
    mismatchSpec refseq readSeq p = none := by
  obtain ⟨op, rd, rf⟩ := p
  cases rf with
  | none => exact Option.noConfusion href
  | some x =>
    injection href with hx
    subst hx
    cases op <;> cases rd <;> simp [mismatchSpec, hc]

theorem collapseGo_consumed (readSeq : List Nat) (initialOp : Cigar) :
    ∀ rest cur acc refPos, ∃ consumed,
      rest = consumed ++ (collapseGo readSeq initialOp cur rest acc refPos).2.2 ∧
      ∀ q ∈ consumed, same_enum_variant q.1 initialOp = true := by
  intro rest
  induction rest with
  | nil =>
    intro cur acc refPos
    refine ⟨[], ?_, by simp⟩
    simp only [collapseGo]
    cases collapseStep readSeq cur acc refPos <;> rfl
  | cons h t ih =>
    intro cur acc refPos
    simp only [collapseGo]
    cases hstep : collapseStep readSeq cur acc refPos with
    | none => exact ⟨[], rfl, by simp⟩
    | some v =>
      obtain ⟨acc2, refPos2⟩ := v
      show ∃ consumed,
        h :: t = consumed ++
          (if same_enum_variant h.1 initialOp = true then
            collapseGo readSeq initialOp h t acc2 refPos2
          else (acc2, refPos2, h :: t)).2.2 ∧
        ∀ q ∈ consumed, same_enum_variant q.1 initialOp = true
      by_cases hv : same_enum_variant h.1 initialOp = true
      · rw [if_pos hv]
        obtain ⟨consumed, hc1, hc2⟩ := ih h acc2 refPos2
        refine ⟨h :: consumed, ?_, ?_⟩
        · rw [List.cons_append, ← hc1]
        · intro q hq
          rcases List.mem_cons.mp hq with hq | hq
          · rw [hq]
            exact hv
          · exact hc2 q hq
      · rw [if_neg hv]
        exact ⟨[], rfl, by simp⟩

theorem collapse_diff_spec (readSeq : List Nat) (start : Nat) (initial : APair)
    (rest : List APair) (d : SequenceDiff) (remaining : List APair)
    (h : collapse_diff readSeq start initial rest = some (d, remaining)) :
    isMismatchB d = false ∧
    ∃ consumed, rest = consumed ++ remaining ∧
      ∀ q ∈ consumed, same_enum_variant q.1 initial.1 = true := by
  obtain ⟨consumed, hc1, hc2⟩ :=
    collapseGo_consumed readSeq initial.1 rest initial [] start
  simp only [collapse_diff] at h
  cases hg : collapseGo readSeq initial.1 initial rest [] start with
  | mk s v =>
    obtain ⟨c, r⟩ := v
    rw [hg] at h hc1
    cases hop : initial.1 with
    | Ins l =>
      rw [hop] at h hc2
      rw [Option.map_eq_some'] at h
      obtain ⟨itv, _, heq⟩ := h
      injection heq with hd hr
      subst hd
      subst hr
      exact ⟨rfl, consumed, hc1, hc2⟩
    | SoftClip l =>
      rw [hop] at h hc2
      rw [Option.map_eq_some'] at h
      obtain ⟨itv, _, heq⟩ := h
      injection heq with hd hr
      subst hd
      subst hr
      exact ⟨rfl, consumed, hc1, hc2⟩
    | Del l =>
      rw [hop] at h hc2
      rw [Option.map_eq_some'] at h
      obtain ⟨itv, _, heq⟩ := h
      injection heq with hd hr
      subst hd
      subst hr
      exact ⟨rfl, consumed, hc1, hc2⟩
    | RefSkip l =>
      rw [hop] at h hc2
      rw [Option.map_eq_some'] at h
      obtain ⟨itv, _, heq⟩ := h
      injection heq with hd hr
      subst hd
      subst hr
      exact ⟨rfl, consumed, hc1, hc2⟩
    | Match l =>
      rw [hop] at h
      exact absurd h (by simp)
    | Equal l =>
      rw [hop] at h
      exact absurd h (by simp)
    | Diff l =>
      rw [hop] at h
      exact absurd h (by simp)
    | HardClip l =>
      rw [hop] at h
      exact absurd h (by simp)
    | Pad l =>
      rw [hop] at h
      exact absurd h (by simp)

theorem filterMap_mismatchSpec_collapse (refseq : SequenceView) (readSeq : List Nat)
    (s : Nat) (p : APair) (rest : List APair) (d0 : SequenceDiff)
    (rem0 : List APair)
    (hcd : collapse_diff readSeq s p rest = some (d0, rem0))
    (h1 : ∀ l, p.1 ≠ Cigar.Match l) (h2 : ∀ l, p.1 ≠ Cigar.Diff l) :
    isMismatchB d0 = false ∧
    (p :: rest).filterMap (mismatchSpec refseq readSeq) =
      rem0.filterMap (mismatchSpec refseq readSeq) ∧
    rem0.length ≤ rest.length := by
  obtain ⟨hm, consumed, hc1, hc2⟩ := collapse_diff_spec readSeq s p rest d0 rem0 hcd
  have hp : mismatchSpec refseq readSeq p = none :=
    mismatchSpec_none_of_not_mx refseq readSeq p h1 h2
  have hcons : ∀ q ∈ consumed, mismatchSpec refseq readSeq q = none := by
    intro q hq
    have hv := hc2 q hq
    apply mismatchSpec_none_of_not_mx
    · intro l hql
      rw [hql] at hv
      obtain ⟨l2, hop⟩ := same_enum_variant_match_left l p.1 hv
      exact h1 l2 hop
    · intro l hql
      rw [hql] at hv
      obtain ⟨l2, hop⟩ := same_enum_variant_diff_left l p.1 hv
      exact h2 l2 hop
  refine ⟨hm, ?_, ?_⟩
  · rw [hc1]
    simp only [List.filterMap_cons, hp, List.filterMap_append,
      List.filterMap_eq_nil_iff.mpr hcons, List.nil_append]
  · have hlen := congrArg List.length hc1
    simp only [List.length_append] at hlen
    omega

theorem diffOne_spec (refseq : SequenceView) (readSeq : List Nat) (s : Nat)
    (op : Cigar) (rd rf : Option Nat) (rest : List APair)
    (od : Option SequenceDiff) (remaining : List APair)
    (hok : ∀ refPos, rf = some refPos → refseq.contains refPos = true)
    (h : diffOne refseq readSeq s (op, rd, rf) rest = some (od, remaining)) :
    remaining.length ≤ rest.length ∧
    od.toList.filter isMismatchB ++
      remaining.filterMap (mismatchSpec refseq readSeq) =
      ((op, rd, rf) :: rest).filterMap (mismatchSpec refseq readSeq) := by
  cases op with
  | Ins l =>
    simp only [diffOne] at h
    rw [Option.map_eq_some'] at h
    obtain ⟨⟨d0, rem0⟩, hcd, heq⟩ := h
    injection heq with hod hrem
    subst hod
    subst hrem
    obtain ⟨hm, hfm, hlen⟩ := filterMap_mismatchSpec_collapse refseq readSeq s _ rest d0 rem0
      hcd (fun l hq => Cigar.noConfusion hq) (fun l hq => Cigar.noConfusion hq)
    refine ⟨hlen, ?_⟩
    simp only [Option.toList, List.filter_cons, hm, List.filter_nil, List.nil_append, hfm]
    simp
  | SoftClip l =>
    simp only [diffOne] at h
    rw [Option.map_eq_some'] at h
    obtain ⟨⟨d0, rem0⟩, hcd, heq⟩ := h
    injection heq with hod hrem
    subst hod
    subst hrem
    obtain ⟨hm, hfm, hlen⟩ := filterMap_mismatchSpec_collapse refseq readSeq s _ rest d0 rem0
      hcd (fun l hq => Cigar.noConfusion hq) (fun l hq => Cigar.noConfusion hq)
    refine ⟨hlen, ?_⟩
    simp only [Option.toList, List.filter_cons, hm, List.filter_nil, List.nil_append, hfm]
    simp
  | Del l =>
    simp only [diffOne] at h
    rw [Option.map_eq_some'] at h
    obtain ⟨⟨d0, rem0⟩, hcd, heq⟩ := h
    injection heq with hod hrem
    subst hod
    subst hrem
    obtain ⟨hm, hfm, hlen⟩ := filterMap_mismatchSpec_collapse refseq readSeq s _ rest d0 rem0
      hcd (fun l hq => Cigar.noConfusion hq) (fun l hq => Cigar.noConfusion hq)
    refine ⟨hlen, ?_⟩
    simp only [Option.toList, List.filter_cons, hm, List.filter_nil, List.nil_append, hfm]
    simp
  | RefSkip l =>
    simp only [diffOne] at h
    rw [Option.map_eq_some'] at h
    obtain ⟨⟨d0, rem0⟩, hcd, heq⟩ := h
    injection heq with hod hrem
    subst hod
    subst hrem
    obtain ⟨hm, hfm, hlen⟩ := filterMap_mismatchSpec_collapse refseq readSeq s _ rest d0 rem0
      hcd (fun l hq => Cigar.noConfusion hq) (fun l hq => Cigar.noConfusion hq)
    refine ⟨hlen, ?_⟩
    simp only [Option.toList, List.filter_cons, hm, List.filter_nil, List.nil_append, hfm]
    simp
  | Match l =>
    cases rd with
    | some readPos =>
      cases rf with
      | some refPos =>
        have hcont := hok refPos rfl
        by_cases hb : readSeq[readPos]?.getD 0 = refseq.index refPos
        · simp only [diffOne, handle_possible_mismatch, List.getD_eq_getElem?_getD, hb,
            ne_eq, not_true_eq_false,
            if_false, Option.map_some', Option.some.injEq, Prod.mk.injEq] at h
          obtain ⟨hod, hrem⟩ := h
          subst hod
          subst hrem
          refine ⟨Nat.le_refl _, ?_⟩
          simp [List.filterMap_cons, mismatchSpec, hcont, hb]
        · simp only [diffOne, handle_possible_mismatch, List.getD_eq_getElem?_getD,
            GenomicInterval.new_succ, ne_eq, hb,
            not_false_eq_true, if_true, Option.map_some', Option.some.injEq,
            Prod.mk.injEq] at h
          obtain ⟨hod, hrem⟩ := h
          subst hod
          subst hrem
          refine ⟨Nat.le_refl _, ?_⟩
          simp [List.filterMap_cons, mismatchSpec, hcont, hb, isMismatchB]
      | none =>
        simp only [diffOne, Option.some.injEq, Prod.mk.injEq] at h
        obtain ⟨hod, hrem⟩ := h
        subst hod
        subst hrem
        refine ⟨Nat.le_refl _, ?_⟩
        simp [mismatchSpec]
    | none =>
      cases rf <;>
        (simp only [diffOne, Option.some.injEq, Prod.mk.injEq] at h
         obtain ⟨hod, hrem⟩ := h
         subst hod
         subst hrem
         refine ⟨Nat.le_refl _, ?_⟩
         simp [mismatchSpec])
  | Diff l =>
    cases rd with
    | some readPos =>
      cases rf with
      | some refPos =>
        have hcont := hok refPos rfl
        by_cases hb : readSeq[readPos]?.getD 0 = refseq.index refPos
        · simp only [diffOne, handle_possible_mismatch, List.getD_eq_getElem?_getD, hb,
            ne_eq, not_true_eq_false,
            if_false, Option.map_some', Option.some.injEq, Prod.mk.injEq] at h
          obtain ⟨hod, hrem⟩ := h
          subst hod
          subst hrem
          refine ⟨Nat.le_refl _, ?_⟩
          simp [List.filterMap_cons, mismatchSpec, hcont, hb]
        · simp only [diffOne, handle_possible_mismatch, List.getD_eq_getElem?_getD,
            GenomicInterval.new_succ, ne_eq, hb,
            not_false_eq_true, if_true, Option.map_some', Option.some.injEq,
            Prod.mk.injEq] at h
          obtain ⟨hod, hrem⟩ := h
          subst hod
          subst hrem
          refine ⟨Nat.le_refl _, ?_⟩
          simp [List.filterMap_cons, mismatchSpec, hcont, hb, isMismatchB]
      | none =>
        simp only [diffOne, Option.some.injEq, Prod.mk.injEq] at h
        obtain ⟨hod, hrem⟩ := h
        subst hod
        subst hrem
        refine ⟨Nat.le_refl _, ?_⟩
        simp [mismatchSpec]
    | none =>
      cases rf <;>
        (simp only [diffOne, Option.some.injEq, Prod.mk.injEq] at h
         obtain ⟨hod, hrem⟩ := h
         subst hod
         subst hrem
         refine ⟨Nat.le_refl _, ?_⟩
         simp [mismatchSpec])
  | Equal l =>
    cases rd <;> cases rf <;>
      (simp only [diffOne, Option.some.injEq, Prod.mk.injEq] at h
       obtain ⟨hod, hrem⟩ := h
       subst hod
       subst hrem
       refine ⟨Nat.le_refl _, ?_⟩
       simp [mismatchSpec])
  | HardClip l =>
    cases rd <;> cases rf <;>
      (simp only [diffOne, Option.some.injEq, Prod.mk.injEq] at h
       obtain ⟨hod, hrem⟩ := h
       subst hod
       subst hrem
       refine ⟨Nat.le_refl _, ?_⟩
       simp [mismatchSpec])
  | Pad l =>
    cases rd <;> cases rf <;>
      (simp only [diffOne, Option.some.injEq, Prod.mk.injEq] at h
       obtain ⟨hod, hrem⟩ := h
       subst hod
       subst hrem
       refine ⟨Nat.le_refl _, ?_⟩
       simp [mismatchSpec])

theorem diffLoop_mismatch_filter (refseq : SequenceView) (readSeq : List Nat) :
    ∀ fuel start pairs diffs, pairs.length < fuel →
    diffLoop refseq readSeq fuel start pairs = some diffs →
    diffs.filter isMismatchB = pairs.filterMap (mismatchSpec refseq readSeq) := by
  intro fuel
  induction fuel with
  | zero =>
    intro start pairs diffs hlen h
    exact (Nat.not_lt_zero _ hlen).elim
  | succ fuel ih =>
    intro start pairs diffs hlen h
    cases pairs with
    | nil =>
      simp only [diffLoop] at h
      injection h with h
      subst h
      rfl
    | cons p rest =>
      have hrest : rest.length < fuel := by
        simp only [List.length_cons] at hlen
        omega
      obtain ⟨op, rd, rf⟩ := p
      simp only [diffLoop] at h
      split at h
      next refPos =>
        split at h
        next hcont =>
          split at h
          next => exact absurd h (by simp)
          next od remaining hone =>
            split at h
            next d =>
              rw [Option.map_eq_some'] at h
              obtain ⟨tl, htl, hdiffs⟩ := h
              subst hdiffs
              obtain ⟨hlen2, hfm⟩ := diffOne_spec refseq readSeq refPos op rd (some refPos)
                rest (some d) remaining
                (fun rp hrp => by injection hrp with hh; rw [← hh]; exact hcont) hone
              have ihc := ih refPos remaining tl (by omega) htl
              rw [← hfm]
              cases hd : isMismatchB d <;>
                simp [Option.toList, List.filter_cons, hd, ihc]
            next =>
              obtain ⟨hlen2, hfm⟩ := diffOne_spec refseq readSeq refPos op rd (some refPos)
                rest none remaining
                (fun rp hrp => by injection hrp with hh; rw [← hh]; exact hcont) hone
              simp only [Option.toList, List.filter_nil, List.nil_append] at hfm
              rw [← hfm]
              exact ih refPos remaining diffs (by omega) h
        next hcontf =>
          have hc : refseq.contains refPos = false := by
            revert hcontf
            cases refseq.contains refPos <;> simp
          have hp := mismatchSpec_none_of_not_contains refseq readSeq (op, rd, some refPos)
            refPos rfl hc
          simp only [List.filterMap_cons, hp]
          exact ih start rest diffs hrest h
      next =>
        split at h
        next => exact absurd h (by simp)
        next od remaining hone =>
          split at h
          next d =>
            rw [Option.map_eq_some'] at h
            obtain ⟨tl, htl, hdiffs⟩ := h
            subst hdiffs
            obtain ⟨hlen2, hfm⟩ := diffOne_spec refseq readSeq start op rd none rest
              (some d) remaining (fun rp hrp => Option.noConfusion hrp) hone
            have ihc := ih start remaining tl (by omega) htl
            rw [← hfm]
            cases hd : isMismatchB d <;>
              simp [Option.toList, List.filter_cons, hd, ihc]
          next =>
            obtain ⟨hlen2, hfm⟩ := diffOne_spec refseq readSeq start op rd none rest
              none remaining (fun rp hrp => Option.noConfusion hrp) hone
            simp only [Option.toList, List.filter_nil, List.nil_append] at hfm
            rw [← hfm]
            exact ih start remaining diffs (by omega) h

/-- C6 (amended): the `Mismatch` diffs of a record are EXACTLY the
single-base mismatches of its `Match`/`Diff` aligned bases — for each aligned
pair under a `Match` or `Diff` (but NOT `Equal`) operation whose reference
position p lies inside the view and whose read base differs from the
reference base at p, one `Mismatch` with interval (p, p+1) carrying that read
base, in order; `Equal` bases are never compared (`DiffAlignments::next`
routes only `Match` and `Diff` to `handle_possible_mismatch`). -/
theorem C6_mismatch_characterization (record : DiffRecord) (refseq : SequenceView)
    (pairs : List APair) (diffs : List SequenceDiff)
    (hp : cigarPairs record.pos 0 record.cigar = some pairs)
    (hd : iter_sequence_diffs record refseq = some diffs) :
    diffs.filter isMismatchB = pairs.filterMap (mismatchSpec refseq record.seq) := by
  simp only [iter_sequence_diffs, hp, Option.some_bind] at hd
  exact diffLoop_mismatch_filter refseq record.seq (pairs.length + 1) record.pos pairs
    diffs (by omega) hd

/-- C6 counterexample: the claim includes `Equal` ('=') bases in the mismatch
comparison.  The record with CIGAR "1=", read "T", at position 1003 has its
single base aligned under `Equal` at in-view reference position 1003 with
read base 'T' (84) differing from the reference base 'A' (65), yet the diff
output is empty: no `Mismatch` is emitted for `Equal` operations. -/
theorem C6_counterexample :
    ¬ (∀ (record : DiffRecord) (refseq : SequenceView) (pairs : List APair)
        (diffs : List SequenceDiff),
        cigarPairs record.pos 0 record.cigar = some pairs →
        iter_sequence_diffs record refseq = some diffs →
        ∀ op readPos refPos, (op, some readPos, some refPos) ∈ pairs →
        (∃ l, op = Cigar.Match l ∨ op = Cigar.Equal l ∨ op = Cigar.Diff l) →
        refseq.contains refPos = true →
        (SequenceDiff.Mismatch ⟨refPos, refPos + 1⟩ [record.seq.getD readPos 0] ∈ diffs ↔
          record.seq.getD readPos 0 ≠ refseq.index refPos)) := by
  intro h
  have hc := h ⟨1003, [Cigar.Equal 1], [84]⟩ testView
    [(Cigar.Equal 1, some 0, some 1003)] []
    (by decide) (by decide) (Cigar.Equal 1) 0 1003 (by decide)
    ⟨1, Or.inr (Or.inl rfl)⟩ (by decide)
  exact absurd (hc.mpr (by decide)) (by decide)

/-- C6 witness: the characterization at the repo's own "1X3=" test record
(read "TGCT" against the view at 1003): the single `Mismatch` at (1003,1004)
is exactly the spec-side mismatch of the `Diff` base, and the three `Equal`
bases contribute nothing. -/
theorem C6_mismatch_characterization_witness :
    ([SequenceDiff.Mismatch ⟨1003, 1004⟩ [84]] : List SequenceDiff).filter isMismatchB =
      ([(Cigar.Diff 1, some 0, some 1003), (Cigar.Equal 3, some 1, some 1004),
        (Cigar.Equal 3, some 2, some 1005), (Cigar.Equal 3, some 3, some 1006)] :
        List APair).filterMap (mismatchSpec testView [84, 71, 67, 84]) :=
  C6_mismatch_characterization ⟨1003, [Cigar.Diff 1, Cigar.Equal 3], [84, 71, 67, 84]⟩
    testView
    [(Cigar.Diff 1, some 0, some 1003), (Cigar.Equal 3, some 1, some 1004),
      (Cigar.Equal 3, some 2, some 1005), (Cigar.Equal 3, some 3, some 1006)]
    [SequenceDiff.Mismatch ⟨1003, 1004⟩ [84]] (by decide) (by decide)
